import Mathlib

/-!
Verification of the minefield engine (`src/lib.rs`).

The Rust code is shallowly embedded as follows:
* `u16` coordinates and dimensions, and the `u8` neighbour-mine counters,
  become `Nat` (the counters never exceed 8, a `u16` never exceeds 65535;
  `saturating_sub`/`saturating_add` are translated explicitly, the latter
  clamping at the `u16` maximum 65535).
* The `HashMap<(u16, u16), Spot>` becomes a function
  `Nat × Nat → Option Spot`; `get`/`get_mut` is function application and an
  in-place store is the pointwise update `setF`.  The `.unwrap()` calls of
  the source are modelled by a `match` whose `none` branch leaves the state
  unchanged; the key-set invariant proved below shows that branch is never
  taken (i.e. the `unwrap` never panics).
* Rust methods mutating `&mut self` become functions returning the result
  together with the new `Minefield`.
* The `while let Some(..) = vec.pop()` flood-reveal loop is translated with
  an explicit fuel parameter; `Minefield.step` supplies the fuel
  `2 * width * height + 1`, which is proved to be enough for the loop to
  run to completion (the stack empties before the fuel does).
* The thread-local RNG consumed by `with_mines` is modelled by an explicit
  list of draws; the draw for a pool of size `n` is taken modulo `n`, so
  every list of naturals denotes a possible execution and every execution
  is denoted by some list.
-/

/-- State of the spot in a minefield (Rust enum `SpotState`). -/
inductive SpotState where
  | HiddenEmpty (neighboring_mines : Nat)
  | HiddenMine
  | FlaggedEmpty (neighboring_mines : Nat)
  | FlaggedMine
  | RevealedEmpty (neighboring_mines : Nat)
  | ExplodedMine
deriving DecidableEq, Repr

/-- Spot struct describing the minefield at a particular position. -/
structure Spot where
  state : SpotState
deriving DecidableEq, Repr

/-- `Spot::default()`: hidden, empty, zero neighbouring mines. -/
def Spot.default : Spot := ⟨SpotState.HiddenEmpty 0⟩

/-- The result of stepping on a spot (Rust enum `StepResult`). -/
inductive StepResult where
  | Phew
  | Boom
  | Invalid
deriving DecidableEq, Repr

/-- The result of toggling a flag (Rust enum `FlagToggleResult`). -/
inductive FlagToggleResult where
  | Removed
  | Added
  | None
deriving DecidableEq, Repr

/-- `Spot::step`: reveal attempt on a single cell; returns the result and
the updated spot (the Rust method mutates `self`). -/
def Spot.step (s : Spot) : StepResult × Spot :=
  match s.state with
  | SpotState.HiddenEmpty n => (StepResult.Phew, ⟨SpotState.RevealedEmpty n⟩)
  | SpotState.HiddenMine => (StepResult.Boom, ⟨SpotState.ExplodedMine⟩)
  | _ => (StepResult.Invalid, s)

/-- `Spot::flag`: toggle a marker on a single cell. -/
def Spot.flag (s : Spot) : FlagToggleResult × Spot :=
  match s.state with
  | SpotState.HiddenEmpty n => (FlagToggleResult.Added, ⟨SpotState.FlaggedEmpty n⟩)
  | SpotState.HiddenMine => (FlagToggleResult.Added, ⟨SpotState.FlaggedMine⟩)
  | SpotState.FlaggedEmpty n => (FlagToggleResult.Removed, ⟨SpotState.HiddenEmpty n⟩)
  | SpotState.FlaggedMine => (FlagToggleResult.Removed, ⟨SpotState.HiddenMine⟩)
  | _ => (FlagToggleResult.None, s)

/-- `Spot::is_resolved`: correctly flagged or correctly revealed. -/
def Spot.is_resolved (s : Spot) : Bool :=
  match s.state with
  | SpotState.FlaggedMine => true
  | SpotState.RevealedEmpty _ => true
  | _ => false

/-- Pointwise update of the coordinate-to-spot map (a `HashMap` store). -/
def setF (f : Nat × Nat → Option Spot) (p : Nat × Nat) (s : Spot) :
    Nat × Nat → Option Spot :=
  fun q => if q = p then some s else f q

/-- All grid coordinates `[0,w) × [0,h)` in the iteration order used by
`Minefield::new` (`(0..width).flat_map(|i| (0..height).map(|j| (i, j)))`). -/
def allCoords (w h : Nat) : List (Nat × Nat) :=
  List.range w ×ˢ List.range h

/-- `Minefield::neighbors_coords`, as a function of the grid dimensions:
the 3×3 block around `(x, y)` (computed with `u16` saturating arithmetic),
intersected with the grid and excluding `(x, y)` itself. -/
def neighborsC (w h x y : Nat) : List (Nat × Nat) :=
  (List.range' (x - 1) (min (x + 1) 65535 + 1 - (x - 1)) ×ˢ
   List.range' (y - 1) (min (y + 1) 65535 + 1 - (y - 1))).filter
    fun p => decide (p.1 < w) && decide (p.2 < h) &&
      !(decide (p.1 = x) && decide (p.2 = y))

/-- The characteristics of the minefield (Rust struct `Minefield`). -/
structure Minefield where
  field : Nat × Nat → Option Spot
  mines : Nat
  width : Nat
  height : Nat

/-- `Minefield::new`: empty grid with all spots hidden; zero dimensions are
coerced to 1.  The `HashMap` collected from the coordinate product holds
exactly the keys `[0,w) × [0,h)`. -/
def Minefield.new (width height : Nat) : Minefield :=
  let w := if width = 0 then 1 else width
  let h := if height = 0 then 1 else height
  { field := fun p => if p.1 < w ∧ p.2 < h then some Spot.default else none
    mines := 0
    width := w
    height := h }

/-- Method wrapper for `neighbors_coords`. -/
def Minefield.neighbors_coords (mf : Minefield) (x y : Nat) : List (Nat × Nat) :=
  neighborsC mf.width mf.height x y

/-- The body of `place_mine`'s neighbour-update loop: increment the
counter of the (empty-family) spot at `c`, if present. -/
def bumpAt (g : Minefield) (c : Nat × Nat) : Minefield :=
  match g.field c with
  | some t =>
    match t.state with
    | SpotState.HiddenEmpty n =>
      { g with field := setF g.field c ⟨SpotState.HiddenEmpty (n + 1)⟩ }
    | SpotState.FlaggedEmpty n =>
      { g with field := setF g.field c ⟨SpotState.FlaggedEmpty (n + 1)⟩ }
    | SpotState.RevealedEmpty n =>
      { g with field := setF g.field c ⟨SpotState.RevealedEmpty (n + 1)⟩ }
    | _ => g
  | none => g

/-- `Minefield::place_mine`: put a mine on a mine-free cell and increment
the counters of all empty-family neighbours.  (The two `assert!`s of the
source never fire on the in-bounds calls made by `with_mines`; an
out-of-bounds coordinate simply misses the map here.) -/
def Minefield.place_mine (mf : Minefield) (x y : Nat) : Minefield :=
  match mf.field (x, y) with
  | some s =>
    match s.state with
    | SpotState.HiddenEmpty _ | SpotState.FlaggedEmpty _ | SpotState.RevealedEmpty _ =>
      let mf1 : Minefield := { mf with field := setF mf.field (x, y) ⟨SpotState.HiddenMine⟩ }
      (mf1.neighbors_coords x y).foldl bumpAt mf1
    | _ => mf
  | none => mf

/-- `Vec::swap_remove(i)`: remove the element at index `i`, replacing it
with the last element; returns the removed element and the new vector. -/
def swapRemove (l : List Nat) (i : Nat) : Nat × List Nat :=
  (l.getD i 0, (l.set i (l.getD (l.length - 1) 0)).dropLast)

/-- The mine-placement loop of `Minefield::with_mines`: `k` times, draw a
uniformly random index into the pool of remaining spots, remove it with
`swap_remove`, and place a mine at the corresponding coordinates. -/
def placeLoop (mf : Minefield) (k : Nat) (rem : List Nat) (draws : List Nat) :
    Minefield :=
  match k with
  | 0 => mf
  | Nat.succ k1 =>
    let i := draws.headD 0 % rem.length
    let r := swapRemove rem i
    let x := r.1 % mf.width
    let y := r.1 / mf.width
    placeLoop (mf.place_mine x y) k1 r.2 draws.tail

/-- `Minefield::with_mines`: clamp the requested count to the number of
spots, record it, and place that many mines via the pool of remaining
indices. -/
def Minefield.with_mines (mf : Minefield) (mines : Nat) (draws : List Nat) :
    Minefield :=
  let spot_count := mf.width * mf.height
  let m := if mines ≤ spot_count then mines else spot_count
  let mf1 : Minefield := { mf with mines := m }
  placeLoop mf1 m (List.range spot_count) draws

/-- The body of the flood-reveal loop for one visited neighbour `c`:
reveal it if it is still `HiddenEmpty` (the `unwrap`-ed lookup is
modelled by the `match`), and push it if its counter is zero. -/
def floodStep (acc : Minefield × List (Nat × Nat)) (c : Nat × Nat) :
    Minefield × List (Nat × Nat) :=
  match acc.1.field c with
  | some t =>
    match t.state with
    | SpotState.HiddenEmpty n =>
      let g : Minefield :=
        { acc.1 with field := setF acc.1.field c ⟨SpotState.RevealedEmpty n⟩ }
      if n = 0 then (g, c :: acc.2) else (g, acc.2)
    | _ => acc
  | none => acc

/-- The body of the flood-reveal `while` loop for one popped coordinate:
visit every neighbour; reveal those still `HiddenEmpty`, and collect the
zero-count ones to be pushed on the stack (head of the returned list =
last pushed = top). -/
def floodVisit (mf : Minefield) (x y : Nat) : Minefield × List (Nat × Nat) :=
  (mf.neighbors_coords x y).foldl floodStep (mf, [])

/-- The flood-reveal `while let Some((xx, yy)) = spots_to_visit.pop()` loop,
with explicit fuel.  The stack is a list whose head is the top (the end of
the Rust `Vec`). -/
def floodLoop (fuel : Nat) (mf : Minefield) (stack : List (Nat × Nat)) :
    Minefield :=
  match fuel, stack with
  | 0, _ => mf
  | _ + 1, [] => mf
  | f + 1, c :: rest =>
    let v := floodVisit mf c.1 c.2
    floodLoop f v.1 (v.2 ++ rest)

/-- `Minefield::step`: step on the spot at `(x, y)` if it is in the map,
then flood-reveal if the spot's state afterwards is `RevealedEmpty {0}`.
The fuel `2 * width * height + 1` dominates the loop measure
`2 * (hidden cells) + (stack size)`, so the loop runs to completion. -/
def Minefield.step (mf : Minefield) (x y : Nat) : StepResult × Minefield :=
  match mf.field (x, y) with
  | some spot =>
    let r := Spot.step spot
    let mf1 : Minefield := { mf with field := setF mf.field (x, y) r.2 }
    match r.2.state with
    | SpotState.RevealedEmpty 0 =>
      (r.1, floodLoop (2 * mf.width * mf.height + 1) mf1 [(x, y)])
    | _ => (r.1, mf1)
  | none => (StepResult.Invalid, mf)

/-- The flag count computed by `Minefield::auto_step`: neighbours whose
spot is `FlaggedEmpty` or `FlaggedMine` (the source `unwrap`s the lookup;
the `none` branch is unreachable by the key-set invariant). -/
def flagCount (mf : Minefield) (x y : Nat) : Nat :=
  (mf.neighbors_coords x y).countP fun c =>
    match mf.field c with
    | some t =>
      match t.state with
      | SpotState.FlaggedEmpty _ => true
      | SpotState.FlaggedMine => true
      | _ => false
    | none => false

/-- The neighbour-stepping loop of `Minefield::auto_step`: step each
coordinate in turn, returning `Boom` eagerly on the first boom, and `Phew`
if the whole list is traversed without one. -/
def stepList (mf : Minefield) (l : List (Nat × Nat)) : StepResult × Minefield :=
  match l with
  | [] => (StepResult.Phew, mf)
  | c :: cs =>
    let r := mf.step c.1 c.2
    if r.1 = StepResult.Boom then (StepResult.Boom, r.2) else stepList r.2 cs

/-- `Minefield::auto_step`: on a revealed-empty spot whose surrounding flag
count equals its counter, step every neighbour with eager `Boom` return;
otherwise `Invalid`. -/
def Minefield.auto_step (mf : Minefield) (x y : Nat) : StepResult × Minefield :=
  match mf.field (x, y) with
  | some spot =>
    match spot.state with
    | SpotState.RevealedEmpty neighboring_mines =>
      if flagCount mf x y = neighboring_mines then
        stepList mf (mf.neighbors_coords x y)
      else
        (StepResult.Invalid, mf)
    | _ => (StepResult.Invalid, mf)
  | none => (StepResult.Invalid, mf)

/-- `Minefield::is_cleared`: every spot of the map is resolved.  By the
key-set invariant the map's entries are exactly the in-bounds coordinates,
so iterating the `HashMap` is iterating `allCoords`. -/
def Minefield.is_cleared (mf : Minefield) : Bool :=
  (allCoords mf.width mf.height).all fun p =>
    match mf.field p with
    | some s => s.is_resolved
    | none => true

/-- `Minefield::toggle_flag`: delegate to `Spot::flag`, `None` outside the
map. -/
def Minefield.toggle_flag (mf : Minefield) (x y : Nat) :
    FlagToggleResult × Minefield :=
  match mf.field (x, y) with
  | some spot =>
    let r := Spot.flag spot
    (r.1, { mf with field := setF mf.field (x, y) r.2 })
  | none => (FlagToggleResult.None, mf)

/-- `Minefield::spot`: reference to a particular spot. -/
def Minefield.spot (mf : Minefield) (x y : Nat) : Option Spot :=
  mf.field (x, y)

/-- Instrumented copy of `floodLoop` that also counts the number of loop
iterations (pops); used to state the termination/resource claim. -/
def floodLoopC (fuel : Nat) (mf : Minefield) (stack : List (Nat × Nat)) :
    Minefield × Nat :=
  match fuel, stack with
  | 0, _ => (mf, 0)
  | _ + 1, [] => (mf, 0)
  | f + 1, c :: rest =>
    let v := floodVisit mf c.1 c.2
    let r := floodLoopC f v.1 (v.2 ++ rest)
    (r.1, r.2 + 1)

/-- Number of `HiddenEmpty` cells of the grid (the flood-reveal loop's
termination measure counts these). -/
def hiddenCount (mf : Minefield) : Nat :=
  (allCoords mf.width mf.height).countP fun p =>
    match mf.field p with
    | some ⟨SpotState.HiddenEmpty _⟩ => true
    | _ => false

/-- Number of cells of the grid holding a hidden mine. -/
def mineCellCount (mf : Minefield) : Nat :=
  (allCoords mf.width mf.height).countP fun p =>
    decide (mf.field p = some ⟨SpotState.HiddenMine⟩)

/-- The play-observable of a spot: whether it holds a mine, and its
`neighboring_mines` counter (0 for the mine states, which carry none).
`step` and `flag` transitions preserve this observable. -/
def spotObs (s : Spot) : Bool × Nat :=
  match s.state with
  | SpotState.HiddenEmpty n => (false, n)
  | SpotState.FlaggedEmpty n => (false, n)
  | SpotState.RevealedEmpty n => (false, n)
  | _ => (true, 0)

/-- The observable of a cell of the grid map. -/
def fieldObs (mf : Minefield) (p : Nat × Nat) : Option (Bool × Nat) :=
  (mf.field p).map spotObs

/-- Does the cell `p` hold a mine (in any of the three mine states)? -/
def isMineB (mf : Minefield) (p : Nat × Nat) : Bool :=
  match mf.field p with
  | some s => (spotObs s).1
  | none => false

/-- Empty-family states: `HiddenEmpty`, `FlaggedEmpty`, `RevealedEmpty`. -/
def SpotState.isEmptyFamily : SpotState → Bool
  | SpotState.HiddenEmpty _ => true
  | SpotState.FlaggedEmpty _ => true
  | SpotState.RevealedEmpty _ => true
  | _ => false

/-- Mine-family states: `HiddenMine`, `FlaggedMine`, `ExplodedMine`. -/
def SpotState.isMineFamily : SpotState → Bool
  | SpotState.HiddenMine => true
  | SpotState.FlaggedMine => true
  | SpotState.ExplodedMine => true
  | _ => false

/-- Increment the `neighboring_mines` counter of an empty-family spot;
identity on mine-family spots (what `place_mine` does to a neighbour). -/
def bumpSpot (s : Spot) : Spot :=
  match s.state with
  | SpotState.HiddenEmpty n => ⟨SpotState.HiddenEmpty (n + 1)⟩
  | SpotState.FlaggedEmpty n => ⟨SpotState.FlaggedEmpty (n + 1)⟩
  | SpotState.RevealedEmpty n => ⟨SpotState.RevealedEmpty (n + 1)⟩
  | _ => s

/-- Spec-level adjacency: `c` is one of the up-to-8 cells around `(x, y)`
(and not `(x, y)` itself). -/
def adjacentB (x y : Nat) (c : Nat × Nat) : Bool :=
  decide (c.1 ≤ x + 1) && decide (x ≤ c.1 + 1) &&
  decide (c.2 ≤ y + 1) && decide (y ≤ c.2 + 1) &&
  !(decide (c.1 = x) && decide (c.2 = y))

/-- The in-bounds cells adjacent to `(x, y)`, defined from the spec's words
(grid ∩ 3×3 block minus centre), independently of `neighbors_coords`. -/
def adjacentCoords (w h x y : Nat) : List (Nat × Nat) :=
  (allCoords w h).filter (adjacentB x y)

/-- The exact number of in-bounds cells adjacent to `(x, y)` holding a
mine. -/
def mineCountAround (mf : Minefield) (x y : Nat) : Nat :=
  (adjacentCoords mf.width mf.height x y).countP (isMineB mf)

/-- The neighbour-count invariant: every empty-family cell's
`neighboring_mines` counter equals the exact number of in-bounds adjacent
cells holding a mine. -/
def countsConsistent (mf : Minefield) : Prop :=
  ∀ x y n, fieldObs mf (x, y) = some (false, n) → n = mineCountAround mf x y

/-- The key-set invariant: the coordinate map holds an entry exactly for
the in-bounds coordinates. -/
def WFdom (mf : Minefield) : Prop :=
  ∀ p : Nat × Nat, (mf.field p).isSome ↔ (p.1 < mf.width ∧ p.2 < mf.height)

/-- The two minefields have the same dimensions and pointwise the same
cell observables (mine placement and counters). -/
def obsEq (a b : Minefield) : Prop :=
  a.width = b.width ∧ a.height = b.height ∧ ∀ p, fieldObs a p = fieldObs b p

/-- Flood-reachability in `mf` from the start cell `s`: the cells reached
by walking from `s` through neighbours, where a walk may only continue
from a cell that is `HiddenEmpty` with counter 0 in `mf`.  These are
exactly the cells visited by the flood reveal started at `s`: the
zero-count region around `s` together with its bordering cells (which are
reached but, having no zero counter, never continued from). -/
inductive Flood (mf : Minefield) (s : Nat × Nat) : Nat × Nat → Prop where
  | start : Flood mf s s
  | extend (p q : Nat × Nat) : Flood mf s p →
      mf.field p = some ⟨SpotState.HiddenEmpty 0⟩ →
      q ∈ mf.neighbors_coords p.1 p.2 → Flood mf s q

/-- States reachable from `mf0` by any sequence of the three in-game
operations `step`, `toggle_flag`, `auto_step`. -/
inductive ReachesFrom (mf0 : Minefield) : Minefield → Prop where
  | refl : ReachesFrom mf0 mf0
  | stepOp (mf : Minefield) (x y : Nat) :
      ReachesFrom mf0 mf → ReachesFrom mf0 (mf.step x y).2
  | flagOp (mf : Minefield) (x y : Nat) :
      ReachesFrom mf0 mf → ReachesFrom mf0 (mf.toggle_flag x y).2
  | autoOp (mf : Minefield) (x y : Nat) :
      ReachesFrom mf0 mf → ReachesFrom mf0 (mf.auto_step x y).2

/-- States produced by `new` and transformed by any sequence of
`with_mines`, `step`, `toggle_flag` and `auto_step` calls. -/
inductive BuildReach : Minefield → Prop where
  | mk (w h : Nat) : BuildReach (Minefield.new w h)
  | withm (mf : Minefield) (c : Nat) (draws : List Nat) :
      BuildReach mf → BuildReach (mf.with_mines c draws)
  | stepOp (mf : Minefield) (x y : Nat) : BuildReach mf → BuildReach (mf.step x y).2
  | flagOp (mf : Minefield) (x y : Nat) :
      BuildReach mf → BuildReach (mf.toggle_flag x y).2
  | autoOp (mf : Minefield) (x y : Nat) :
      BuildReach mf → BuildReach (mf.auto_step x y).2

/-- Stepping through a whole list of coordinates without the eager `Boom`
return; used to describe what `auto_step`'s loop has done so far. -/
def stepSeq (mf : Minefield) (l : List (Nat × Nat)) : Minefield :=
  l.foldl (fun g c => (g.step c.1 c.2).2) mf

/-- What one flood-reveal visit does to the content of a cell: a still
hidden empty spot is revealed (keeping its counter), anything else is left
alone. -/
def revealSpotOpt (o : Option Spot) : Option Spot :=
  match o with
  | some ⟨SpotState.HiddenEmpty n⟩ => some ⟨SpotState.RevealedEmpty n⟩
  | _ => o

/-- Soundness invariant of the flood-reveal loop, relative to the original
minefield `mf` and start cell `s`: the loop state `g` has the original
dimensions, and each cell either still holds what it held just after the
start cell was revealed, or is a flood-reachable cell that was
`HiddenEmpty` and has been revealed with its counter kept. -/
def floodInvA (mf : Minefield) (s : Nat × Nat) (g : Minefield) : Prop :=
  g.width = mf.width ∧ g.height = mf.height ∧
  ∀ p, g.field p = setF mf.field s ⟨SpotState.RevealedEmpty 0⟩ p ∨
    (∃ n, setF mf.field s ⟨SpotState.RevealedEmpty 0⟩ p =
        some ⟨SpotState.HiddenEmpty n⟩ ∧
      g.field p = some ⟨SpotState.RevealedEmpty n⟩ ∧ Flood mf s p)

/-- Stack invariant of the flood-reveal loop: every pending coordinate is
flood-reachable and was a zero-count hidden empty cell originally. -/
def floodInvB (mf : Minefield) (s : Nat × Nat) (stack : List (Nat × Nat)) :
    Prop :=
  ∀ c ∈ stack, Flood mf s c ∧ mf.field c = some ⟨SpotState.HiddenEmpty 0⟩

/-- Completeness invariant of the flood-reveal loop: every revealed
zero-count cell of the original zero-region is either still pending on the
stack or has already had all its neighbours revealed (none is still
`HiddenEmpty`). -/
def floodInvC (mf : Minefield) (s : Nat × Nat) (g : Minefield)
    (stack : List (Nat × Nat)) : Prop :=
  ∀ q, Flood mf s q → mf.field q = some ⟨SpotState.HiddenEmpty 0⟩ →
    g.field q = some ⟨SpotState.RevealedEmpty 0⟩ →
    (q ∈ stack ∨ ∀ c ∈ mf.neighbors_coords q.1 q.2, ∀ n,
      g.field c ≠ some ⟨SpotState.HiddenEmpty n⟩)

/-! ### Basic lemmas: map update, coordinate lists, counting -/

theorem setF_same (f : Nat × Nat → Option Spot) (p : Nat × Nat) (s : Spot) :
    setF f p s p = some s := by
  simp [setF]

theorem setF_other (f : Nat × Nat → Option Spot) (p : Nat × Nat) (s : Spot)
    {q : Nat × Nat} (h : q ≠ p) : setF f p s q = f q := by
  simp [setF, h]

theorem setF_self (f : Nat × Nat → Option Spot) (p : Nat × Nat) (s : Spot)
    (h : f p = some s) : setF f p s = f := by
  funext q
  by_cases hq : q = p
  · subst hq; simp [setF, h]
  · simp [setF, hq]

theorem mem_allCoords {w h : Nat} {p : Nat × Nat} :
    p ∈ allCoords w h ↔ p.1 < w ∧ p.2 < h := by
  obtain ⟨a, b⟩ := p
  simp [allCoords, List.mem_product]

theorem nodup_allCoords (w h : Nat) : (allCoords w h).Nodup :=
  List.Nodup.product (List.nodup_range w) (List.nodup_range h)

theorem length_allCoords (w h : Nat) : (allCoords w h).length = w * h := by
  simp [allCoords, List.length_product]

theorem mem_range'_iff {s n m : Nat} :
    m ∈ List.range' s n ↔ s ≤ m ∧ m < s + n := by
  rw [List.mem_range']
  constructor
  · rintro ⟨i, hi, rfl⟩; omega
  · intro h
    exact ⟨m - s, by omega, by omega⟩

theorem mem_neighborsC {w h x y : Nat} {c : Nat × Nat} :
    c ∈ neighborsC w h x y ↔
      x - 1 ≤ c.1 ∧ c.1 ≤ min (x + 1) 65535 ∧
      y - 1 ≤ c.2 ∧ c.2 ≤ min (y + 1) 65535 ∧
      c.1 < w ∧ c.2 < h ∧ ¬(c.1 = x ∧ c.2 = y) := by
  obtain ⟨a, b⟩ := c
  simp only [neighborsC, List.mem_filter, List.mem_product, mem_range'_iff,
    Bool.and_eq_true, Bool.not_eq_true', Bool.and_eq_false_iff,
    decide_eq_true_eq, decide_eq_false_iff_not]
  rcases le_or_lt (x + 1) 65535 with hx | hx <;>
    rcases le_or_lt (y + 1) 65535 with hy | hy <;>
    [rw [Nat.min_eq_left hx, Nat.min_eq_left hy];
     rw [Nat.min_eq_left hx, Nat.min_eq_right (by omega : 65535 ≤ y + 1)];
     rw [Nat.min_eq_right (by omega : 65535 ≤ x + 1), Nat.min_eq_left hy];
     rw [Nat.min_eq_right (by omega : 65535 ≤ x + 1),
       Nat.min_eq_right (by omega : 65535 ≤ y + 1)]] <;>
    omega

theorem mem_neighborsC_bounds {w h x y : Nat} {c : Nat × Nat}
    (hc : c ∈ neighborsC w h x y) : c.1 < w ∧ c.2 < h := by
  have hh := mem_neighborsC.mp hc
  exact ⟨hh.2.2.2.2.1, hh.2.2.2.2.2.1⟩

theorem mem_neighborsC_ne {w h x y : Nat} {c : Nat × Nat}
    (hc : c ∈ neighborsC w h x y) : c ≠ (x, y) := by
  have hh := (mem_neighborsC.mp hc).2.2.2.2.2.2
  intro hcc
  exact hh ⟨by rw [hcc], by rw [hcc]⟩

theorem nodup_neighborsC (w h x y : Nat) : (neighborsC w h x y).Nodup :=
  (List.Nodup.product (List.nodup_range' _ _) (List.nodup_range' _ _)).filter _

theorem adjacentB_true_iff {x y : Nat} {c : Nat × Nat} :
    adjacentB x y c = true ↔
      (c.1 ≤ x + 1 ∧ x ≤ c.1 + 1 ∧ c.2 ≤ y + 1 ∧ y ≤ c.2 + 1 ∧
       ¬(c.1 = x ∧ c.2 = y)) := by
  simp only [adjacentB, Bool.and_eq_true, Bool.not_eq_true',
    Bool.and_eq_false_iff, decide_eq_true_eq, decide_eq_false_iff_not]
  omega

theorem mem_neighborsC_iff_adjacent {w h x y : Nat} (hx : x + 1 ≤ 65535)
    (hy : y + 1 ≤ 65535) {c : Nat × Nat} :
    c ∈ neighborsC w h x y ↔
      (adjacentB x y c = true ∧ c.1 < w ∧ c.2 < h) := by
  rw [mem_neighborsC, adjacentB_true_iff,
    Nat.min_eq_left hx, Nat.min_eq_left hy]
  omega

theorem mem_adjacentCoords {w h x y : Nat} {c : Nat × Nat} :
    c ∈ adjacentCoords w h x y ↔
      (c.1 < w ∧ c.2 < h ∧ adjacentB x y c = true) := by
  simp only [adjacentCoords, List.mem_filter, mem_allCoords]
  tauto

theorem nodup_adjacentCoords (w h x y : Nat) : (adjacentCoords w h x y).Nodup :=
  (nodup_allCoords w h).filter _

theorem neighborsC_symm {w h x y a b : Nat} (hw : w ≤ 65535) (hh : h ≤ 65535)
    (hx : x < w) (hy : y < h) (ha : a < w) (hb : b < h) :
    (a, b) ∈ neighborsC w h x y ↔ (x, y) ∈ neighborsC w h a b := by
  rw [mem_neighborsC_iff_adjacent (by omega) (by omega),
    mem_neighborsC_iff_adjacent (by omega) (by omega),
    adjacentB_true_iff, adjacentB_true_iff]
  simp only
  omega

theorem countP_update_succ {α : Type} {l : List α} {c : α} {p q : α → Bool}
    (hn : l.Nodup) (hc : c ∈ l) (hagree : ∀ a ∈ l, a ≠ c → p a = q a)
    (hp : p c = true) (hq : q c = false) :
    l.countP p = l.countP q + 1 := by
  induction l with
  | nil => cases hc
  | cons d t ih =>
    rw [List.countP_cons, List.countP_cons]
    rcases List.mem_cons.mp hc with hcd | hct
    · subst hcd
      rw [hp, hq]
      have hdt : ∀ a ∈ t, p a = q a := by
        intro a hat
        have hac : a ≠ c := by
          intro hh
          exact (List.nodup_cons.mp hn).1 (hh ▸ hat)
        exact hagree a (List.mem_cons_of_mem c hat) hac
      rw [List.countP_congr fun a hat => by rw [hdt a hat]]
      simp
    · have hdc : d ≠ c := by
        intro hh
        exact (List.nodup_cons.mp hn).1 (hh ▸ hct)
      rw [ih (List.nodup_cons.mp hn).2 hct
          (fun a hat hac => hagree a (List.mem_cons_of_mem d hat) hac),
        hagree d (List.mem_cons_self d t) hdc]
      omega

/-! ### Frame lemmas: dimensions, key set, observables of the operations -/

theorem spotObs_step (s : Spot) : spotObs (Spot.step s).2 = spotObs s := by
  obtain ⟨st⟩ := s
  cases st <;> rfl

theorem spotObs_flag (s : Spot) : spotObs (Spot.flag s).2 = spotObs s := by
  obtain ⟨st⟩ := s
  cases st <;> rfl

theorem WFdom_new (w h : Nat) : WFdom (Minefield.new w h) := by
  intro p
  simp only [Minefield.new]
  by_cases hp : p.1 < (if w = 0 then 1 else w) ∧ p.2 < (if h = 0 then 1 else h) <;>
    simp [hp]

theorem WFdom_update {mf : Minefield} {p : Nat × Nat} {s0 : Spot} (s : Spot)
    (hwf : WFdom mf) (hp : mf.field p = some s0) :
    WFdom { mf with field := setF mf.field p s } := by
  intro q
  by_cases hq : q = p
  · subst hq
    simpa [setF] using hwf q |>.mp (by rw [hp]; rfl)
  · simpa [setF, hq] using hwf q

theorem bumpAt_frame (g : Minefield) (c : Nat × Nat) :
    (bumpAt g c).width = g.width ∧ (bumpAt g c).height = g.height ∧
    (bumpAt g c).mines = g.mines ∧
    (bumpAt g c).field c = Option.map bumpSpot (g.field c) ∧
    (∀ q, q ≠ c → (bumpAt g c).field q = g.field q) := by
  cases hg : g.field c with
  | none => simp [bumpAt, hg]
  | some t =>
    obtain ⟨st⟩ := t
    cases st <;>
      refine ⟨?_, ?_, ?_, ?_, ?_⟩ <;>
      simp only [bumpAt, hg, bumpSpot] <;>
      try intro q hq
    all_goals try rfl
    all_goals try exact trivial
    all_goals try exact setF_same _ _ _
    all_goals try exact setF_other _ _ _ hq

theorem WFdom_bumpAt {g : Minefield} (hwf : WFdom g) (c : Nat × Nat) :
    WFdom (bumpAt g c) := by
  cases hg : g.field c with
  | none => simpa [bumpAt, hg] using hwf
  | some t =>
    obtain ⟨st⟩ := t
    cases st <;> simp only [bumpAt, hg] <;> first
      | exact hwf
      | exact WFdom_update _ hwf hg

theorem foldl_bumpAt_frame (l : List (Nat × Nat)) (g : Minefield) :
    (l.foldl bumpAt g).width = g.width ∧ (l.foldl bumpAt g).height = g.height ∧
    (l.foldl bumpAt g).mines = g.mines := by
  induction l generalizing g with
  | nil => exact ⟨rfl, rfl, rfl⟩
  | cons c t ih =>
    have hb := bumpAt_frame g c
    have ht := ih (bumpAt g c)
    simp only [List.foldl_cons]
    exact ⟨ht.1.trans hb.1, ht.2.1.trans hb.2.1, ht.2.2.trans hb.2.2.1⟩

theorem foldl_bumpAt_not_mem {l : List (Nat × Nat)} {q : Nat × Nat}
    (h : q ∉ l) (g : Minefield) : (l.foldl bumpAt g).field q = g.field q := by
  induction l generalizing g with
  | nil => rfl
  | cons c t ih =>
    have hqc : q ≠ c := fun hh => h (hh ▸ List.mem_cons_self c t)
    have hqt : q ∉ t := fun hh => h (List.mem_cons_of_mem c hh)
    simp only [List.foldl_cons]
    rw [ih hqt, (bumpAt_frame g c).2.2.2.2 q hqc]

theorem foldl_bumpAt_field {l : List (Nat × Nat)} (hn : l.Nodup)
    (g : Minefield) (q : Nat × Nat) :
    (l.foldl bumpAt g).field q =
      if q ∈ l then Option.map bumpSpot (g.field q) else g.field q := by
  induction l generalizing g with
  | nil => simp
  | cons c t ih =>
    simp only [List.foldl_cons]
    by_cases hqc : q = c
    · subst hqc
      have hqt : q ∉ t := (List.nodup_cons.mp hn).1
      rw [foldl_bumpAt_not_mem hqt, (bumpAt_frame g q).2.2.2.1]
      simp
    · rw [ih (List.nodup_cons.mp hn).2 (bumpAt g c)]
      by_cases hqt : q ∈ t
      · simp [hqt, hqc, (bumpAt_frame g c).2.2.2.2 q hqc]
      · have : q ∉ c :: t := by
          intro hh
          rcases List.mem_cons.mp hh with hh | hh
          · exact hqc hh
          · exact hqt hh
        simp [hqt, hqc, this, (bumpAt_frame g c).2.2.2.2 q hqc]

theorem WFdom_foldl_bumpAt {l : List (Nat × Nat)} {g : Minefield}
    (hwf : WFdom g) : WFdom (l.foldl bumpAt g) := by
  induction l generalizing g with
  | nil => exact hwf
  | cons c t ih => exact ih (WFdom_bumpAt hwf c)

theorem fieldObs_update_eqObs {mf : Minefield} {p : Nat × Nat} {s : Spot}
    (s' : Spot) (hp : mf.field p = some s) (hobs : spotObs s' = spotObs s)
    (q : Nat × Nat) :
    fieldObs { mf with field := setF mf.field p s' } q = fieldObs mf q := by
  by_cases hq : q = p
  · subst hq; simp [fieldObs, setF, hp, hobs]
  · simp [fieldObs, setF, hq]

theorem floodStep_frame (acc : Minefield × List (Nat × Nat)) (c : Nat × Nat) :
    (floodStep acc c).1.width = acc.1.width ∧
    (floodStep acc c).1.height = acc.1.height ∧
    (floodStep acc c).1.mines = acc.1.mines ∧
    (floodStep acc c).1.field c = revealSpotOpt (acc.1.field c) ∧
    (∀ q, q ≠ c → (floodStep acc c).1.field q = acc.1.field q) ∧
    (floodStep acc c).2 =
      (if acc.1.field c = some ⟨SpotState.HiddenEmpty 0⟩ then c :: acc.2
       else acc.2) := by
  cases hg : acc.1.field c with
  | none => simp [floodStep, hg, revealSpotOpt]
  | some t =>
    obtain ⟨st⟩ := t
    cases st with
    | HiddenEmpty n =>
      by_cases hn : n = 0
      · subst hn
        simp [floodStep, hg, revealSpotOpt, setF_same]
        intro a b hab
        exact setF_other _ _ _ hab
      · simp [floodStep, hg, revealSpotOpt, setF_same, hn]
        intro a b hab
        exact setF_other _ _ _ hab
    | HiddenMine => simp [floodStep, hg, revealSpotOpt]
    | FlaggedEmpty n => simp [floodStep, hg, revealSpotOpt]
    | FlaggedMine => simp [floodStep, hg, revealSpotOpt]
    | RevealedEmpty n => simp [floodStep, hg, revealSpotOpt]
    | ExplodedMine => simp [floodStep, hg, revealSpotOpt]

theorem WFdom_floodStep {acc : Minefield × List (Nat × Nat)}
    (hwf : WFdom acc.1) (c : Nat × Nat) : WFdom (floodStep acc c).1 := by
  cases hg : acc.1.field c with
  | none => simpa [floodStep, hg] using hwf
  | some t =>
    obtain ⟨st⟩ := t
    cases st with
    | HiddenEmpty n =>
      have hup := WFdom_update (⟨SpotState.RevealedEmpty n⟩ : Spot) hwf hg
      by_cases hn : n = 0
      · subst hn
        simp only [floodStep, hg]
        simpa using hup
      · simp only [floodStep, hg, hn]
        simpa using hup
    | HiddenMine => simpa [floodStep, hg] using hwf
    | FlaggedEmpty n => simpa [floodStep, hg] using hwf
    | FlaggedMine => simpa [floodStep, hg] using hwf
    | RevealedEmpty n => simpa [floodStep, hg] using hwf
    | ExplodedMine => simpa [floodStep, hg] using hwf

theorem fieldObs_floodStep (acc : Minefield × List (Nat × Nat))
    (c q : Nat × Nat) : fieldObs (floodStep acc c).1 q = fieldObs acc.1 q := by
  by_cases hq : q = c
  · subst hq
    rw [fieldObs, (floodStep_frame acc q).2.2.2.1]
    cases hg : acc.1.field q with
    | none => simp [revealSpotOpt, fieldObs, hg]
    | some t =>
      obtain ⟨st⟩ := t
      cases st <;> simp [revealSpotOpt, fieldObs, hg, spotObs]
  · rw [fieldObs, (floodStep_frame acc c).2.2.2.2.1 q hq, fieldObs]

theorem hiddenCount_congr {a b : Minefield} (hw : a.width = b.width)
    (hh : a.height = b.height) (hf : ∀ p, a.field p = b.field p) :
    hiddenCount a = hiddenCount b := by
  unfold hiddenCount
  rw [hw, hh]
  exact List.countP_congr fun p hp => by rw [hf p]

theorem hiddenCount_le (mf : Minefield) :
    hiddenCount mf ≤ mf.width * mf.height := by
  calc hiddenCount mf ≤ (allCoords mf.width mf.height).length :=
        List.countP_le_length _
    _ = mf.width * mf.height := length_allCoords _ _

theorem hiddenCount_update_reveal {mf : Minefield} {p : Nat × Nat} {n : Nat}
    (hp : mf.field p = some ⟨SpotState.HiddenEmpty n⟩)
    (h1 : p.1 < mf.width) (h2 : p.2 < mf.height) :
    hiddenCount mf =
      hiddenCount { mf with field := setF mf.field p ⟨SpotState.RevealedEmpty n⟩ } + 1 := by
  unfold hiddenCount
  refine countP_update_succ (nodup_allCoords _ _)
    (mem_allCoords.mpr ⟨h1, h2⟩) ?_ ?_ ?_
  · intro a ha hane
    show (match mf.field a with
      | some ⟨SpotState.HiddenEmpty _⟩ => true
      | _ => false) =
      (match setF mf.field p ⟨SpotState.RevealedEmpty n⟩ a with
      | some ⟨SpotState.HiddenEmpty _⟩ => true
      | _ => false)
    rw [setF_other _ _ _ hane]
  · show (match mf.field p with
      | some ⟨SpotState.HiddenEmpty _⟩ => true
      | _ => false) = true
    rw [hp]
  · show (match setF mf.field p ⟨SpotState.RevealedEmpty n⟩ p with
      | some ⟨SpotState.HiddenEmpty _⟩ => true
      | _ => false) = false
    rw [setF_same]

theorem foldl_floodStep_dims (l : List (Nat × Nat))
    (acc : Minefield × List (Nat × Nat)) :
    (l.foldl floodStep acc).1.width = acc.1.width ∧
    (l.foldl floodStep acc).1.height = acc.1.height ∧
    (l.foldl floodStep acc).1.mines = acc.1.mines := by
  induction l generalizing acc with
  | nil => exact ⟨rfl, rfl, rfl⟩
  | cons c t ih =>
    have hs := floodStep_frame acc c
    have ht := ih (floodStep acc c)
    simp only [List.foldl_cons]
    exact ⟨ht.1.trans hs.1, ht.2.1.trans hs.2.1, ht.2.2.trans hs.2.2.1⟩

theorem foldl_floodStep_not_mem {l : List (Nat × Nat)} {q : Nat × Nat}
    (h : q ∉ l) (acc : Minefield × List (Nat × Nat)) :
    (l.foldl floodStep acc).1.field q = acc.1.field q := by
  induction l generalizing acc with
  | nil => rfl
  | cons c t ih =>
    have hqc : q ≠ c := fun hh => h (hh ▸ List.mem_cons_self c t)
    have hqt : q ∉ t := fun hh => h (List.mem_cons_of_mem c hh)
    simp only [List.foldl_cons]
    rw [ih hqt, (floodStep_frame acc c).2.2.2.2.1 q hqc]

theorem foldl_floodStep_field {l : List (Nat × Nat)} (hn : l.Nodup)
    (acc : Minefield × List (Nat × Nat)) (q : Nat × Nat) :
    (l.foldl floodStep acc).1.field q =
      if q ∈ l then revealSpotOpt (acc.1.field q) else acc.1.field q := by
  induction l generalizing acc with
  | nil => simp
  | cons c t ih =>
    simp only [List.foldl_cons]
    by_cases hqc : q = c
    · subst hqc
      have hqt : q ∉ t := (List.nodup_cons.mp hn).1
      rw [foldl_floodStep_not_mem hqt, (floodStep_frame acc q).2.2.2.1]
      simp
    · rw [ih (List.nodup_cons.mp hn).2 (floodStep acc c)]
      by_cases hqt : q ∈ t
      · simp [hqt, hqc, (floodStep_frame acc c).2.2.2.2.1 q hqc]
      · have hcl : q ∉ c :: t := by
          intro hh
          rcases List.mem_cons.mp hh with hh | hh
          · exact hqc hh
          · exact hqt hh
        simp [hqt, hqc, hcl, (floodStep_frame acc c).2.2.2.2.1 q hqc]

theorem foldl_floodStep_stack {l : List (Nat × Nat)} (hn : l.Nodup)
    (acc : Minefield × List (Nat × Nat)) :
    (l.foldl floodStep acc).2 =
      (l.filter fun c =>
        decide (acc.1.field c = some ⟨SpotState.HiddenEmpty 0⟩)).reverse ++
        acc.2 := by
  induction l generalizing acc with
  | nil => rfl
  | cons c t ih =>
    simp only [List.foldl_cons, List.filter_cons]
    have hct : c ∉ t := (List.nodup_cons.mp hn).1
    rw [ih (List.nodup_cons.mp hn).2 (floodStep acc c)]
    have hfe : (t.filter fun a =>
        decide ((floodStep acc c).1.field a = some ⟨SpotState.HiddenEmpty 0⟩)) =
        (t.filter fun a =>
        decide (acc.1.field a = some ⟨SpotState.HiddenEmpty 0⟩)) := by
      refine List.filter_congr ?_
      intro a hat
      have hac : a ≠ c := fun hh => hct (hh ▸ hat)
      rw [(floodStep_frame acc c).2.2.2.2.1 a hac]
    rw [hfe, (floodStep_frame acc c).2.2.2.2.2]
    by_cases hc0 : acc.1.field c = some ⟨SpotState.HiddenEmpty 0⟩ <;>
      simp [hc0, List.reverse_cons, List.append_assoc]

theorem WFdom_foldl_floodStep {l : List (Nat × Nat)}
    {acc : Minefield × List (Nat × Nat)} (hwf : WFdom acc.1) :
    WFdom (l.foldl floodStep acc).1 := by
  induction l generalizing acc with
  | nil => exact hwf
  | cons c t ih => exact ih (WFdom_floodStep hwf c)

theorem fieldObs_foldl_floodStep (l : List (Nat × Nat))
    (acc : Minefield × List (Nat × Nat)) (q : Nat × Nat) :
    fieldObs (l.foldl floodStep acc).1 q = fieldObs acc.1 q := by
  induction l generalizing acc with
  | nil => rfl
  | cons c t ih =>
    simp only [List.foldl_cons]
    rw [ih (floodStep acc c), fieldObs_floodStep]

theorem floodStep_measure (acc : Minefield × List (Nat × Nat))
    {c : Nat × Nat} (hc : c.1 < acc.1.width ∧ c.2 < acc.1.height) :
    hiddenCount (floodStep acc c).1 + (floodStep acc c).2.length ≤
      hiddenCount acc.1 + acc.2.length := by
  cases hg : acc.1.field c with
  | none => simp [floodStep, hg]
  | some t =>
    obtain ⟨st⟩ := t
    cases st with
    | HiddenEmpty n =>
      have hkey : hiddenCount acc.1 =
          hiddenCount { acc.1 with
            field := setF acc.1.field c ⟨SpotState.RevealedEmpty n⟩ } + 1 :=
        hiddenCount_update_reveal hg hc.1 hc.2
      have hsame : hiddenCount (floodStep acc c).1 =
          hiddenCount { acc.1 with
            field := setF acc.1.field c ⟨SpotState.RevealedEmpty n⟩ } := by
        refine hiddenCount_congr (floodStep_frame acc c).1
          (floodStep_frame acc c).2.1 ?_
        intro p
        by_cases hp : p = c
        · subst hp
          rw [(floodStep_frame acc p).2.2.2.1, hg]
          show revealSpotOpt (some ⟨SpotState.HiddenEmpty n⟩) =
            setF acc.1.field p ⟨SpotState.RevealedEmpty n⟩ p
          rw [setF_same]
          rfl
        · rw [(floodStep_frame acc c).2.2.2.2.1 p hp]
          show acc.1.field p = setF acc.1.field c ⟨SpotState.RevealedEmpty n⟩ p
          rw [setF_other _ _ _ hp]
      have hstack := (floodStep_frame acc c).2.2.2.2.2
      have htot : hiddenCount acc.1 = hiddenCount (floodStep acc c).1 + 1 := by
        rw [hsame]
        exact hkey
      by_cases hn : n = 0
      · subst hn
        rw [hstack, if_pos hg]
        simp only [List.length_cons]
        omega
      · have hne : ¬(acc.1.field c = some ⟨SpotState.HiddenEmpty 0⟩) := by
          rw [hg]
          intro hh
          apply hn
          have h1 := Option.some.inj hh
          have h2 := congrArg Spot.state h1
          simpa using h2
        rw [hstack, if_neg hne]
        omega
    | HiddenMine => simp [floodStep, hg]
    | FlaggedEmpty n => simp [floodStep, hg]
    | FlaggedMine => simp [floodStep, hg]
    | RevealedEmpty n => simp [floodStep, hg]
    | ExplodedMine => simp [floodStep, hg]

theorem foldl_floodStep_measure (l : List (Nat × Nat))
    (acc : Minefield × List (Nat × Nat))
    (hb : ∀ c ∈ l, c.1 < acc.1.width ∧ c.2 < acc.1.height) :
    hiddenCount (l.foldl floodStep acc).1 + (l.foldl floodStep acc).2.length ≤
      hiddenCount acc.1 + acc.2.length := by
  induction l generalizing acc with
  | nil => exact Nat.le_refl _
  | cons c t ih =>
    simp only [List.foldl_cons]
    have hstep := floodStep_measure acc (hb c (List.mem_cons_self c t))
    have hrec := ih (floodStep acc c) (by
      intro d hd
      have := hb d (List.mem_cons_of_mem c hd)
      rw [(floodStep_frame acc c).1, (floodStep_frame acc c).2.1]
      exact this)
    omega

theorem floodVisit_measure (mf : Minefield) (x y : Nat) :
    hiddenCount (floodVisit mf x y).1 + (floodVisit mf x y).2.length ≤
      hiddenCount mf := by
  have := foldl_floodStep_measure (mf.neighbors_coords x y) (mf, []) (by
    intro c hc
    exact mem_neighborsC_bounds hc)
  simpa [floodVisit] using this

theorem floodVisit_dims (mf : Minefield) (x y : Nat) :
    (floodVisit mf x y).1.width = mf.width ∧
    (floodVisit mf x y).1.height = mf.height ∧
    (floodVisit mf x y).1.mines = mf.mines :=
  foldl_floodStep_dims _ _

theorem WFdom_floodVisit {mf : Minefield} (hwf : WFdom mf) (x y : Nat) :
    WFdom (floodVisit mf x y).1 :=
  WFdom_foldl_floodStep hwf

theorem fieldObs_floodVisit (mf : Minefield) (x y : Nat) (q : Nat × Nat) :
    fieldObs (floodVisit mf x y).1 q = fieldObs mf q :=
  fieldObs_foldl_floodStep _ _ _

theorem floodVisit_field (mf : Minefield) (x y : Nat) (q : Nat × Nat) :
    (floodVisit mf x y).1.field q =
      if q ∈ mf.neighbors_coords x y then revealSpotOpt (mf.field q)
      else mf.field q :=
  foldl_floodStep_field (nodup_neighborsC _ _ _ _) _ _

theorem floodVisit_stack (mf : Minefield) (x y : Nat) :
    (floodVisit mf x y).2 =
      ((mf.neighbors_coords x y).filter fun c =>
        decide (mf.field c = some ⟨SpotState.HiddenEmpty 0⟩)).reverse := by
  rw [floodVisit, Minefield.neighbors_coords,
    foldl_floodStep_stack (nodup_neighborsC _ _ _ _)]
  simp [Minefield.neighbors_coords]

theorem mem_floodVisit_stack {mf : Minefield} {x y : Nat} {q : Nat × Nat} :
    q ∈ (floodVisit mf x y).2 ↔
      q ∈ mf.neighbors_coords x y ∧
      mf.field q = some ⟨SpotState.HiddenEmpty 0⟩ := by
  rw [floodVisit_stack]
  simp [List.mem_filter]

theorem floodLoop_dims (fuel : Nat) (mf : Minefield)
    (stack : List (Nat × Nat)) :
    (floodLoop fuel mf stack).width = mf.width ∧
    (floodLoop fuel mf stack).height = mf.height ∧
    (floodLoop fuel mf stack).mines = mf.mines := by
  induction fuel generalizing mf stack with
  | zero => exact ⟨rfl, rfl, rfl⟩
  | succ f ih =>
    cases stack with
    | nil => exact ⟨rfl, rfl, rfl⟩
    | cons c rest =>
      have hv := floodVisit_dims mf c.1 c.2
      have hr := ih (floodVisit mf c.1 c.2).1 ((floodVisit mf c.1 c.2).2 ++ rest)
      simp only [floodLoop]
      exact ⟨hr.1.trans hv.1, hr.2.1.trans hv.2.1, hr.2.2.trans hv.2.2⟩

theorem WFdom_floodLoop (fuel : Nat) {mf : Minefield}
    (stack : List (Nat × Nat)) (hwf : WFdom mf) :
    WFdom (floodLoop fuel mf stack) := by
  induction fuel generalizing mf stack with
  | zero => exact hwf
  | succ f ih =>
    cases stack with
    | nil => exact hwf
    | cons c rest =>
      simp only [floodLoop]
      exact ih _ (WFdom_floodVisit hwf c.1 c.2)

theorem fieldObs_floodLoop (fuel : Nat) (mf : Minefield)
    (stack : List (Nat × Nat)) (q : Nat × Nat) :
    fieldObs (floodLoop fuel mf stack) q = fieldObs mf q := by
  induction fuel generalizing mf stack with
  | zero => rfl
  | succ f ih =>
    cases stack with
    | nil => rfl
    | cons c rest =>
      simp only [floodLoop]
      rw [ih (floodVisit mf c.1 c.2).1 ((floodVisit mf c.1 c.2).2 ++ rest),
        fieldObs_floodVisit]

theorem step_frame (mf : Minefield) (x y : Nat) :
    (mf.step x y).2.width = mf.width ∧
    (mf.step x y).2.height = mf.height ∧
    (mf.step x y).2.mines = mf.mines ∧
    (∀ q, fieldObs (mf.step x y).2 q = fieldObs mf q) := by
  cases hf : mf.field (x, y) with
  | none => simp [Minefield.step, hf]
  | some spot =>
    obtain ⟨st⟩ := spot
    cases st with
    | HiddenEmpty n =>
      cases n with
      | zero =>
        simp only [Minefield.step, hf, Spot.step]
        refine ⟨(floodLoop_dims _ _ _).1, (floodLoop_dims _ _ _).2.1,
          (floodLoop_dims _ _ _).2.2, ?_⟩
        intro q
        rw [fieldObs_floodLoop]
        exact fieldObs_update_eqObs ⟨SpotState.RevealedEmpty 0⟩ hf rfl q
      | succ m =>
        simp only [Minefield.step, hf, Spot.step, true_and]
        exact fun q =>
          fieldObs_update_eqObs ⟨SpotState.RevealedEmpty (m + 1)⟩ hf rfl q
    | HiddenMine =>
      simp only [Minefield.step, hf, Spot.step, true_and]
      exact fun q => fieldObs_update_eqObs ⟨SpotState.ExplodedMine⟩ hf rfl q
    | FlaggedEmpty n =>
      simp only [Minefield.step, hf, Spot.step, true_and]
      exact fun q => fieldObs_update_eqObs ⟨SpotState.FlaggedEmpty n⟩ hf rfl q
    | FlaggedMine =>
      simp only [Minefield.step, hf, Spot.step, true_and]
      exact fun q => fieldObs_update_eqObs ⟨SpotState.FlaggedMine⟩ hf rfl q
    | RevealedEmpty n =>
      cases n with
      | zero =>
        simp only [Minefield.step, hf, Spot.step]
        refine ⟨(floodLoop_dims _ _ _).1, (floodLoop_dims _ _ _).2.1,
          (floodLoop_dims _ _ _).2.2, ?_⟩
        intro q
        rw [fieldObs_floodLoop]
        exact fieldObs_update_eqObs ⟨SpotState.RevealedEmpty 0⟩ hf rfl q
      | succ m =>
        simp only [Minefield.step, hf, Spot.step, true_and]
        exact fun q =>
          fieldObs_update_eqObs ⟨SpotState.RevealedEmpty (m + 1)⟩ hf rfl q
    | ExplodedMine =>
      simp only [Minefield.step, hf, Spot.step, true_and]
      exact fun q => fieldObs_update_eqObs ⟨SpotState.ExplodedMine⟩ hf rfl q

theorem WFdom_step {mf : Minefield} (hwf : WFdom mf) (x y : Nat) :
    WFdom (mf.step x y).2 := by
  cases hf : mf.field (x, y) with
  | none => simpa [Minefield.step, hf] using hwf
  | some spot =>
    obtain ⟨st⟩ := spot
    cases st with
    | HiddenEmpty n =>
      cases n with
      | zero =>
        simp only [Minefield.step, hf, Spot.step]
        exact WFdom_floodLoop _ _ (WFdom_update _ hwf hf)
      | succ m =>
        simp only [Minefield.step, hf, Spot.step]
        exact WFdom_update _ hwf hf
    | HiddenMine =>
      simp only [Minefield.step, hf, Spot.step]
      exact WFdom_update _ hwf hf
    | FlaggedEmpty n =>
      simp only [Minefield.step, hf, Spot.step]
      exact WFdom_update _ hwf hf
    | FlaggedMine =>
      simp only [Minefield.step, hf, Spot.step]
      exact WFdom_update _ hwf hf
    | RevealedEmpty n =>
      cases n with
      | zero =>
        simp only [Minefield.step, hf, Spot.step]
        exact WFdom_floodLoop _ _ (WFdom_update _ hwf hf)
      | succ m =>
        simp only [Minefield.step, hf, Spot.step]
        exact WFdom_update _ hwf hf
    | ExplodedMine =>
      simp only [Minefield.step, hf, Spot.step]
      exact WFdom_update _ hwf hf

theorem toggle_frame (mf : Minefield) (x y : Nat) :
    (mf.toggle_flag x y).2.width = mf.width ∧
    (mf.toggle_flag x y).2.height = mf.height ∧
    (mf.toggle_flag x y).2.mines = mf.mines ∧
    (∀ q, fieldObs (mf.toggle_flag x y).2 q = fieldObs mf q) := by
  cases hf : mf.field (x, y) with
  | none => simp [Minefield.toggle_flag, hf]
  | some spot =>
    simp only [Minefield.toggle_flag, hf, true_and]
    exact fun q => fieldObs_update_eqObs (Spot.flag spot).2 hf (spotObs_flag spot) q

theorem WFdom_toggle {mf : Minefield} (hwf : WFdom mf) (x y : Nat) :
    WFdom (mf.toggle_flag x y).2 := by
  cases hf : mf.field (x, y) with
  | none => simpa [Minefield.toggle_flag, hf] using hwf
  | some spot =>
    simp only [Minefield.toggle_flag, hf]
    exact WFdom_update _ hwf hf

theorem stepList_frame (l : List (Nat × Nat)) (mf : Minefield) :
    (stepList mf l).2.width = mf.width ∧
    (stepList mf l).2.height = mf.height ∧
    (stepList mf l).2.mines = mf.mines ∧
    (∀ q, fieldObs (stepList mf l).2 q = fieldObs mf q) := by
  induction l generalizing mf with
  | nil => exact ⟨rfl, rfl, rfl, fun q => rfl⟩
  | cons c cs ih =>
    have hs := step_frame mf c.1 c.2
    simp only [stepList]
    by_cases hb : (mf.step c.1 c.2).1 = StepResult.Boom
    · simp only [hb, if_pos rfl]
      exact hs
    · simp only [if_neg hb]
      have ht := ih (mf.step c.1 c.2).2
      exact ⟨ht.1.trans hs.1, ht.2.1.trans hs.2.1, ht.2.2.1.trans hs.2.2.1,
        fun q => (ht.2.2.2 q).trans (hs.2.2.2 q)⟩

theorem WFdom_stepList {l : List (Nat × Nat)} {mf : Minefield}
    (hwf : WFdom mf) : WFdom (stepList mf l).2 := by
  induction l generalizing mf with
  | nil => exact hwf
  | cons c cs ih =>
    simp only [stepList]
    by_cases hb : (mf.step c.1 c.2).1 = StepResult.Boom
    · simp only [hb, if_pos rfl]
      exact WFdom_step hwf c.1 c.2
    · simp only [if_neg hb]
      exact ih (WFdom_step hwf c.1 c.2)

theorem auto_frame (mf : Minefield) (x y : Nat) :
    (mf.auto_step x y).2.width = mf.width ∧
    (mf.auto_step x y).2.height = mf.height ∧
    (mf.auto_step x y).2.mines = mf.mines ∧
    (∀ q, fieldObs (mf.auto_step x y).2 q = fieldObs mf q) := by
  cases hf : mf.field (x, y) with
  | none => simp [Minefield.auto_step, hf]
  | some spot =>
    obtain ⟨st⟩ := spot
    cases st with
    | RevealedEmpty n =>
      simp only [Minefield.auto_step, hf]
      by_cases hc : flagCount mf x y = n
      · simp only [hc, if_pos rfl]
        exact stepList_frame _ _
      · simp [if_neg hc]
    | HiddenEmpty n => simp [Minefield.auto_step, hf]
    | HiddenMine => simp [Minefield.auto_step, hf]
    | FlaggedEmpty n => simp [Minefield.auto_step, hf]
    | FlaggedMine => simp [Minefield.auto_step, hf]
    | ExplodedMine => simp [Minefield.auto_step, hf]

theorem WFdom_auto {mf : Minefield} (hwf : WFdom mf) (x y : Nat) :
    WFdom (mf.auto_step x y).2 := by
  cases hf : mf.field (x, y) with
  | none => simpa [Minefield.auto_step, hf] using hwf
  | some spot =>
    obtain ⟨st⟩ := spot
    cases st with
    | RevealedEmpty n =>
      simp only [Minefield.auto_step, hf]
      by_cases hc : flagCount mf x y = n
      · simp only [hc, if_pos rfl]
        exact WFdom_stepList hwf
      · simpa only [if_neg hc] using hwf
    | HiddenEmpty n => simpa [Minefield.auto_step, hf] using hwf
    | HiddenMine => simpa [Minefield.auto_step, hf] using hwf
    | FlaggedEmpty n => simpa [Minefield.auto_step, hf] using hwf
    | FlaggedMine => simpa [Minefield.auto_step, hf] using hwf
    | ExplodedMine => simpa [Minefield.auto_step, hf] using hwf

/-! ### Helper lemmas for the claim theorems -/

theorem mf_update_self {mf : Minefield} {p : Nat × Nat} {s : Spot}
    (h : mf.field p = some s) :
    ({ mf with field := setF mf.field p s } : Minefield) = mf := by
  have hsf := setF_self mf.field p s h
  calc ({ mf with field := setF mf.field p s } : Minefield)
      = { mf with field := mf.field } := by rw [hsf]
    _ = mf := rfl

theorem field_none_of_oob {mf : Minefield} (hwf : WFdom mf) {x y : Nat}
    (h : mf.width ≤ x ∨ mf.height ≤ y) : mf.field (x, y) = none := by
  cases hfield : mf.field (x, y) with
  | none => rfl
  | some s =>
    have hb := (hwf (x, y)).mp (by rw [hfield]; rfl)
    exact absurd hb (by omega)

theorem is_resolved_iff (s : Spot) :
    s.is_resolved = true ↔
      ((∃ n, s.state = SpotState.RevealedEmpty n) ∨
       s.state = SpotState.FlaggedMine) := by
  obtain ⟨st⟩ := s
  cases st <;> simp [Spot.is_resolved]

/-! ### Claim theorems -/

/-- C1, corrected.  For an in-bounds spot that is flagged (either kind),
exploded, or revealed with a nonzero counter, `step` returns `Invalid` and
leaves the minefield unchanged.  For a spot already `RevealedEmpty {0}`,
`step` still returns `Invalid`, but — contrary to the claim — the
flood-reveal runs anyway (the code guards the flood on the post-step
*state* being `RevealedEmpty {0}`, not on the step result being `Phew`),
so hidden neighbours can be revealed; see the counterexample. -/
theorem spec_c1_invalid_step (mf : Minefield) (x y : Nat) (s : Spot)
    (hs : mf.field (x, y) = some s) :
    (∀ n, s.state = SpotState.FlaggedEmpty n →
      mf.step x y = (StepResult.Invalid, mf)) ∧
    (s.state = SpotState.FlaggedMine →
      mf.step x y = (StepResult.Invalid, mf)) ∧
    (s.state = SpotState.ExplodedMine →
      mf.step x y = (StepResult.Invalid, mf)) ∧
    (∀ n, s.state = SpotState.RevealedEmpty (n + 1) →
      mf.step x y = (StepResult.Invalid, mf)) ∧
    (s.state = SpotState.RevealedEmpty 0 →
      (mf.step x y).1 = StepResult.Invalid) := by
  obtain ⟨st⟩ := s
  refine ⟨?_, ?_, ?_, ?_, ?_⟩
  · intro n hst
    have hst2 : st = SpotState.FlaggedEmpty n := hst
    subst hst2
    simp only [Minefield.step, hs, Spot.step]
    rw [mf_update_self hs]
  · intro hst
    have hst2 : st = SpotState.FlaggedMine := hst
    subst hst2
    simp only [Minefield.step, hs, Spot.step]
    rw [mf_update_self hs]
  · intro hst
    have hst2 : st = SpotState.ExplodedMine := hst
    subst hst2
    simp only [Minefield.step, hs, Spot.step]
    rw [mf_update_self hs]
  · intro n hst
    have hst2 : st = SpotState.RevealedEmpty (n + 1) := hst
    subst hst2
    simp only [Minefield.step, hs, Spot.step]
    rw [mf_update_self hs]
  · intro hst
    have hst2 : st = SpotState.RevealedEmpty 0 := hst
    subst hst2
    simp only [Minefield.step, hs, Spot.step]

/-- C1, counterexample to the claim as stated: on a 2×1 grid, flag `(1,0)`,
step `(0,0)` (flood stops at the flag), unflag `(1,0)`.  Now `(0,0)` is
already revealed (`RevealedEmpty {0}`), so by the claim `step(0,0)` must
return `Invalid` and change nothing — it does return `Invalid`, but it
also flood-reveals the hidden neighbour `(1,0)`. -/
theorem spec_c1_cx :
    ((((Minefield.new 2 1).toggle_flag 1 0).2.step 0 0).2.toggle_flag 1 0).2.field (0, 0) =
      some ⟨SpotState.RevealedEmpty 0⟩ ∧
    ((((Minefield.new 2 1).toggle_flag 1 0).2.step 0 0).2.toggle_flag 1 0).2.field (1, 0) =
      some ⟨SpotState.HiddenEmpty 0⟩ ∧
    (((((Minefield.new 2 1).toggle_flag 1 0).2.step 0 0).2.toggle_flag 1 0).2.step 0 0).1 =
      StepResult.Invalid ∧
    (((((Minefield.new 2 1).toggle_flag 1 0).2.step 0 0).2.toggle_flag 1 0).2.step 0 0).2.field (1, 0) =
      some ⟨SpotState.RevealedEmpty 0⟩ := by
  refine ⟨?_, ?_, ?_, ?_⟩ <;> decide

/-- Witness for C1: a concrete flagged spot, on which `step` is `Invalid`
and the field is unchanged. -/
theorem spec_c1_invalid_step_witness :
    ((Minefield.new 1 1).toggle_flag 0 0).2.field (0, 0) =
      some ⟨SpotState.FlaggedEmpty 0⟩ ∧
    ((Minefield.new 1 1).toggle_flag 0 0).2.step 0 0 =
      (StepResult.Invalid, ((Minefield.new 1 1).toggle_flag 0 0).2) :=
  ⟨by decide,
   (spec_c1_invalid_step ((Minefield.new 1 1).toggle_flag 0 0).2 0 0
     ⟨SpotState.FlaggedEmpty 0⟩ (by decide)).1 0 rfl⟩

/-- C6.  Placing a mine on an in-bounds mine-free (empty-family) cell makes
exactly that cell `HiddenMine`, bumps the counter of every neighbouring
cell by exactly one (`bumpSpot` increments empty-family spots and fixes
mine-family spots), and changes nothing else; placing a mine on a cell
already holding a mine changes nothing at all. -/
theorem spec_c6_place_mine (mf : Minefield) (x y : Nat) (s : Spot)
    (hs : mf.field (x, y) = some s) :
    (s.state.isEmptyFamily = true →
      ((mf.place_mine x y).field (x, y) = some ⟨SpotState.HiddenMine⟩ ∧
       (∀ p, p ∈ mf.neighbors_coords x y →
         (mf.place_mine x y).field p = Option.map bumpSpot (mf.field p)) ∧
       (∀ p, p ≠ (x, y) → p ∉ mf.neighbors_coords x y →
         (mf.place_mine x y).field p = mf.field p) ∧
       (mf.place_mine x y).width = mf.width ∧
       (mf.place_mine x y).height = mf.height ∧
       (mf.place_mine x y).mines = mf.mines)) ∧
    (s.state.isMineFamily = true → mf.place_mine x y = mf) := by
  obtain ⟨st⟩ := s
  constructor
  · intro hemp
    cases st <;> first
      | (exact Bool.noConfusion hemp)
      | (simp only [Minefield.place_mine, hs, Minefield.neighbors_coords]
         refine ⟨?_, ?_, ?_, ?_, ?_, ?_⟩
         · rw [foldl_bumpAt_not_mem
             (fun hmem => (mem_neighborsC_ne hmem) rfl)]
           exact setF_same _ _ _
         · intro p hp
           have hp2 : p ∈ neighborsC mf.width mf.height x y := hp
           rw [foldl_bumpAt_field (nodup_neighborsC _ _ _ _) _ p, if_pos hp2]
           show Option.map bumpSpot (setF mf.field (x, y) ⟨SpotState.HiddenMine⟩ p) =
             Option.map bumpSpot (mf.field p)
           rw [setF_other _ _ _ (mem_neighborsC_ne hp2)]
         · intro p hp1 hp2
           have hp3 : p ∉ neighborsC mf.width mf.height x y := hp2
           rw [foldl_bumpAt_not_mem hp3]
           show setF mf.field (x, y) ⟨SpotState.HiddenMine⟩ p = mf.field p
           rw [setF_other _ _ _ hp1]
         · exact (foldl_bumpAt_frame _ _).1
         · exact (foldl_bumpAt_frame _ _).2.1
         · exact (foldl_bumpAt_frame _ _).2.2)
  · intro hmine
    cases st <;> first
      | (exact Bool.noConfusion hmine)
      | (simp only [Minefield.place_mine, hs])

/-- Witness for C6: placing a mine at `(0,0)` of a fresh 2×1 grid. -/
theorem spec_c6_place_mine_witness :
    (Minefield.new 2 1).field (0, 0) = some ⟨SpotState.HiddenEmpty 0⟩ ∧
    (SpotState.HiddenEmpty 0).isEmptyFamily = true ∧
    (((Minefield.new 2 1).place_mine 0 0).field (0, 0) =
        some ⟨SpotState.HiddenMine⟩ ∧
     (∀ p, p ∈ (Minefield.new 2 1).neighbors_coords 0 0 →
       ((Minefield.new 2 1).place_mine 0 0).field p =
         Option.map bumpSpot ((Minefield.new 2 1).field p)) ∧
     (∀ p, p ≠ (0, 0) → p ∉ (Minefield.new 2 1).neighbors_coords 0 0 →
       ((Minefield.new 2 1).place_mine 0 0).field p =
         (Minefield.new 2 1).field p) ∧
     ((Minefield.new 2 1).place_mine 0 0).width = (Minefield.new 2 1).width ∧
     ((Minefield.new 2 1).place_mine 0 0).height = (Minefield.new 2 1).height ∧
     ((Minefield.new 2 1).place_mine 0 0).mines = (Minefield.new 2 1).mines) :=
  ⟨by decide, by decide,
   (spec_c6_place_mine (Minefield.new 2 1) 0 0 ⟨SpotState.HiddenEmpty 0⟩
     (by decide)).1 (by decide)⟩

/-- C7.  On a well-formed minefield (one whose key set is exactly the
in-bounds coordinates — an invariant of every reachable state, see C10),
any out-of-bounds coordinate makes `step` and `auto_step` return `Invalid`
and `toggle_flag` return `None`, each leaving the minefield unchanged; in
the model the operations are total functions, and the key-set invariant
(C10) shows the internal `unwrap`s never panic. -/
theorem spec_c7_oob (mf : Minefield) (x y : Nat) (hwf : WFdom mf)
    (h : mf.width ≤ x ∨ mf.height ≤ y) :
    mf.step x y = (StepResult.Invalid, mf) ∧
    mf.auto_step x y = (StepResult.Invalid, mf) ∧
    mf.toggle_flag x y = (FlagToggleResult.None, mf) := by
  have hf := field_none_of_oob hwf h
  refine ⟨?_, ?_, ?_⟩ <;>
    simp [Minefield.step, Minefield.auto_step, Minefield.toggle_flag, hf]

/-- Witness for C7: the 1×1 grid and the out-of-bounds coordinate (5, 0). -/
theorem spec_c7_oob_witness :
    WFdom (Minefield.new 1 1) ∧
    ((Minefield.new 1 1).width ≤ 5 ∨ (Minefield.new 1 1).height ≤ 0) ∧
    ((Minefield.new 1 1).step 5 0 = (StepResult.Invalid, Minefield.new 1 1) ∧
     (Minefield.new 1 1).auto_step 5 0 = (StepResult.Invalid, Minefield.new 1 1) ∧
     (Minefield.new 1 1).toggle_flag 5 0 = (FlagToggleResult.None, Minefield.new 1 1)) :=
  ⟨WFdom_new 1 1, Or.inl (by decide),
   spec_c7_oob (Minefield.new 1 1) 5 0 (WFdom_new 1 1) (Or.inl (by decide))⟩

/-- C9.  On a well-formed minefield, `is_cleared` is `true` exactly when
every spot of the map is `RevealedEmpty` (any counter) or `FlaggedMine`;
it is `false` whenever any spot is in one of the four other states.  The
model's `is_cleared` is a pure function of the minefield, so it mutates
nothing. -/
theorem spec_c9_is_cleared (mf : Minefield) (hwf : WFdom mf) :
    mf.is_cleared = true ↔
      (∀ x y s, mf.field (x, y) = some s →
        ((∃ n, s.state = SpotState.RevealedEmpty n) ∨
         s.state = SpotState.FlaggedMine)) := by
  rw [Minefield.is_cleared, List.all_eq_true]
  constructor
  · intro hall x y s hs
    have hin : (x, y) ∈ allCoords mf.width mf.height :=
      mem_allCoords.mpr ((hwf (x, y)).mp (by rw [hs]; rfl))
    have h2 : (match mf.field (x, y) with
      | some s => s.is_resolved
      | none => true) = true := hall (x, y) hin
    rw [hs] at h2
    exact (is_resolved_iff s).mp h2
  · intro hres p hp
    show (match mf.field p with
      | some s => s.is_resolved
      | none => true) = true
    cases hfp : mf.field p with
    | none => rfl
    | some s => exact (is_resolved_iff s).mpr (hres p.1 p.2 s hfp)

/-- Witness for C9: the fresh 1×1 grid (not cleared: its one cell is
hidden). -/
theorem spec_c9_is_cleared_witness :
    WFdom (Minefield.new 1 1) ∧
    ((Minefield.new 1 1).is_cleared = true ↔
      (∀ x y s, (Minefield.new 1 1).field (x, y) = some s →
        ((∃ n, s.state = SpotState.RevealedEmpty n) ∨
         s.state = SpotState.FlaggedMine))) :=
  ⟨WFdom_new 1 1, spec_c9_is_cleared (Minefield.new 1 1) (WFdom_new 1 1)⟩

theorem place_frame (mf : Minefield) (x y : Nat) :
    (mf.place_mine x y).width = mf.width ∧
    (mf.place_mine x y).height = mf.height ∧
    (mf.place_mine x y).mines = mf.mines := by
  cases hs : mf.field (x, y) with
  | none => simp [Minefield.place_mine, hs]
  | some s =>
    obtain ⟨st⟩ := s
    cases st <;> first
      | (simp only [Minefield.place_mine, hs]
         exact ⟨(foldl_bumpAt_frame _ _).1, (foldl_bumpAt_frame _ _).2.1,
           (foldl_bumpAt_frame _ _).2.2⟩)
      | (simp [Minefield.place_mine, hs])

theorem WFdom_place {mf : Minefield} (hwf : WFdom mf) (x y : Nat) :
    WFdom (mf.place_mine x y) := by
  cases hs : mf.field (x, y) with
  | none => simpa [Minefield.place_mine, hs] using hwf
  | some s =>
    obtain ⟨st⟩ := s
    cases st <;> first
      | (simp only [Minefield.place_mine, hs]
         exact WFdom_foldl_bumpAt (WFdom_update _ hwf hs))
      | (simpa only [Minefield.place_mine, hs] using hwf)

theorem placeLoop_frame (k : Nat) (mf : Minefield) (rem draws : List Nat) :
    (placeLoop mf k rem draws).width = mf.width ∧
    (placeLoop mf k rem draws).height = mf.height ∧
    (placeLoop mf k rem draws).mines = mf.mines := by
  induction k generalizing mf rem draws with
  | zero => exact ⟨rfl, rfl, rfl⟩
  | succ k1 ih =>
    simp only [placeLoop]
    have hp := place_frame mf
      ((swapRemove rem (draws.headD 0 % rem.length)).1 % mf.width)
      ((swapRemove rem (draws.headD 0 % rem.length)).1 / mf.width)
    have hr := ih (mf.place_mine
        ((swapRemove rem (draws.headD 0 % rem.length)).1 % mf.width)
        ((swapRemove rem (draws.headD 0 % rem.length)).1 / mf.width))
      (swapRemove rem (draws.headD 0 % rem.length)).2 draws.tail
    exact ⟨hr.1.trans hp.1, hr.2.1.trans hp.2.1, hr.2.2.trans hp.2.2⟩

theorem WFdom_placeLoop (k : Nat) {mf : Minefield} (rem draws : List Nat)
    (hwf : WFdom mf) : WFdom (placeLoop mf k rem draws) := by
  induction k generalizing mf rem draws with
  | zero => exact hwf
  | succ k1 ih =>
    simp only [placeLoop]
    exact ih _ _ (WFdom_place hwf _ _)

theorem WFdom_set_mines {mf : Minefield} (m : Nat) (hwf : WFdom mf) :
    WFdom ({ mf with mines := m } : Minefield) :=
  fun p => hwf p

theorem WFdom_withm {mf : Minefield} (hwf : WFdom mf) (c : Nat)
    (draws : List Nat) : WFdom (mf.with_mines c draws) := by
  simp only [Minefield.with_mines]
  exact WFdom_placeLoop _ _ _ (WFdom_set_mines _ hwf)

theorem WFdom_buildReach {mf : Minefield} (hr : BuildReach mf) : WFdom mf := by
  induction hr with
  | mk w h => exact WFdom_new w h
  | withm mf c draws _ ih => exact WFdom_withm ih c draws
  | stepOp mf x y _ ih => exact WFdom_step ih x y
  | flagOp mf x y _ ih => exact WFdom_toggle ih x y
  | autoOp mf x y _ ih => exact WFdom_auto ih x y

/-- C10.  Every minefield produced by `new` and transformed by any
sequence of `with_mines`, `step`, `toggle_flag` and `auto_step` calls has
its coordinate map defined exactly on `[0,width) × [0,height)`: `spot`
returns `some` iff the coordinate is in bounds, and every coordinate
yielded by `neighbors_coords` hits a present entry — so the `unwrap`-ed
internal lookups of the flood reveal and of `auto_step`'s flag counting
can never panic. -/
theorem spec_c10_keyset (mf : Minefield) (hr : BuildReach mf) :
    (∀ x y, (mf.spot x y).isSome ↔ (x < mf.width ∧ y < mf.height)) ∧
    (∀ xx yy, ∀ c ∈ mf.neighbors_coords xx yy, (mf.field c).isSome) := by
  have hwf : WFdom mf := WFdom_buildReach hr
  refine ⟨fun x y => hwf (x, y), ?_⟩
  intro xx yy c hc
  exact (hwf c).mpr (mem_neighborsC_bounds hc)

/-- Witness for C10: the freshly constructed 1×1 grid. -/
theorem spec_c10_keyset_witness :
    BuildReach (Minefield.new 1 1) ∧
    ((∀ x y, ((Minefield.new 1 1).spot x y).isSome ↔
        (x < (Minefield.new 1 1).width ∧ y < (Minefield.new 1 1).height)) ∧
     (∀ xx yy, ∀ c ∈ (Minefield.new 1 1).neighbors_coords xx yy,
        ((Minefield.new 1 1).field c).isSome)) :=
  ⟨BuildReach.mk 1 1, spec_c10_keyset (Minefield.new 1 1) (BuildReach.mk 1 1)⟩

/-- One unfolding of `stepSeq`. -/
theorem stepSeq_cons (mf : Minefield) (a : Nat × Nat) (l : List (Nat × Nat)) :
    stepSeq mf (a :: l) = stepSeq (mf.step a.1 a.2).2 l := rfl

/-- The neighbour-stepping loop of `auto_step` either steps through the
whole list with no `Boom` and returns `Phew` with the state after stepping
every element, or stops at the first element whose step booms, returning
`Boom` with the state reached just after that step (everything stepped
before the boom is retained; the suffix is untouched). -/
theorem stepList_spec (l : List (Nat × Nat)) (mf : Minefield) :
    ((∀ pre c post, l = pre ++ c :: post →
        ((stepSeq mf pre).step c.1 c.2).1 ≠ StepResult.Boom) ∧
      stepList mf l = (StepResult.Phew, stepSeq mf l)) ∨
    (∃ pre c post, l = pre ++ c :: post ∧
      (∀ pre1 d post1, pre = pre1 ++ d :: post1 →
        ((stepSeq mf pre1).step d.1 d.2).1 ≠ StepResult.Boom) ∧
      ((stepSeq mf pre).step c.1 c.2).1 = StepResult.Boom ∧
      stepList mf l = (StepResult.Boom, ((stepSeq mf pre).step c.1 c.2).2)) := by
  induction l generalizing mf with
  | nil =>
    left
    constructor
    · intro pre c post hsplit
      cases pre <;> simp at hsplit
    · rfl
  | cons a as ih =>
    by_cases hb : (mf.step a.1 a.2).1 = StepResult.Boom
    · right
      refine ⟨[], a, as, rfl, ?_, ?_, ?_⟩
      · intro pre1 d post1 hsplit
        cases pre1 <;> simp at hsplit
      · exact hb
      · simp only [stepList, hb, if_pos rfl]
        rfl
    · rcases ih (mf.step a.1 a.2).2 with ⟨hnb, heq⟩ | ⟨pre, c, post, hsplit, hnb, hboom, hval⟩
      · left
        constructor
        · intro pre c post hsplit
          cases pre with
          | nil =>
            simp only [List.nil_append, List.cons.injEq] at hsplit
            rw [← hsplit.1]
            exact hb
          | cons e pre1 =>
            simp only [List.cons_append, List.cons.injEq] at hsplit
            rw [← hsplit.1, stepSeq_cons]
            rw [← hsplit.1] at hsplit
            exact hnb pre1 c post hsplit.2
        · simp only [stepList, if_neg hb, heq, stepSeq_cons]
      · right
        refine ⟨a :: pre, c, post, by rw [List.cons_append, hsplit], ?_, ?_, ?_⟩
        · intro pre1 d post1 hsplit1
          cases pre1 with
          | nil =>
            simp only [List.nil_append, List.cons.injEq] at hsplit1
            rw [← hsplit1.1]
            exact hb
          | cons e pre2 =>
            simp only [List.cons_append, List.cons.injEq] at hsplit1
            rw [← hsplit1.1, stepSeq_cons]
            rw [← hsplit1.1] at hsplit1
            exact hnb pre2 d post1 hsplit1.2
        · rw [stepSeq_cons]
          exact hboom
        · simp only [stepList, if_neg hb, hval, stepSeq_cons]

/-- C4.  `auto_step(x,y)` returns `Invalid` with no mutation when `(x,y)`
misses the map (out of bounds) or its spot is not `RevealedEmpty`, and
when the count of flagged neighbours differs from the spot's counter.
Otherwise it equals the neighbour-stepping loop: either no neighbour step
booms and it returns `Phew` with every neighbour stepped, or it stops at
the first neighbour whose step returns `Boom`, keeping the reveals made
before the boom (no rollback). -/
theorem spec_c4_auto_step (mf : Minefield) (x y : Nat) :
    ((¬ ∃ s n, mf.field (x, y) = some s ∧
        s.state = SpotState.RevealedEmpty n) →
      mf.auto_step x y = (StepResult.Invalid, mf)) ∧
    (∀ s n, mf.field (x, y) = some s → s.state = SpotState.RevealedEmpty n →
      flagCount mf x y ≠ n → mf.auto_step x y = (StepResult.Invalid, mf)) ∧
    (∀ s n, mf.field (x, y) = some s → s.state = SpotState.RevealedEmpty n →
      flagCount mf x y = n →
      (((∀ pre c post, mf.neighbors_coords x y = pre ++ c :: post →
           ((stepSeq mf pre).step c.1 c.2).1 ≠ StepResult.Boom) ∧
         mf.auto_step x y =
           (StepResult.Phew, stepSeq mf (mf.neighbors_coords x y))) ∨
       (∃ pre c post, mf.neighbors_coords x y = pre ++ c :: post ∧
         (∀ pre1 d post1, pre = pre1 ++ d :: post1 →
           ((stepSeq mf pre1).step d.1 d.2).1 ≠ StepResult.Boom) ∧
         ((stepSeq mf pre).step c.1 c.2).1 = StepResult.Boom ∧
         mf.auto_step x y =
           (StepResult.Boom, ((stepSeq mf pre).step c.1 c.2).2)))) := by
  refine ⟨?_, ?_, ?_⟩
  · intro hno
    cases hf : mf.field (x, y) with
    | none => simp [Minefield.auto_step, hf]
    | some s =>
      obtain ⟨st⟩ := s
      cases st with
      | RevealedEmpty n => exact absurd ⟨⟨SpotState.RevealedEmpty n⟩, n, hf, rfl⟩ hno
      | HiddenEmpty n => simp [Minefield.auto_step, hf]
      | HiddenMine => simp [Minefield.auto_step, hf]
      | FlaggedEmpty n => simp [Minefield.auto_step, hf]
      | FlaggedMine => simp [Minefield.auto_step, hf]
      | ExplodedMine => simp [Minefield.auto_step, hf]
  · intro s n hf hst hcnt
    obtain ⟨st⟩ := s
    have hst2 : st = SpotState.RevealedEmpty n := hst
    subst hst2
    simp [Minefield.auto_step, hf, hcnt]
  · intro s n hf hst hcnt
    obtain ⟨st⟩ := s
    have hst2 : st = SpotState.RevealedEmpty n := hst
    subst hst2
    have hauto : mf.auto_step x y = stepList mf (mf.neighbors_coords x y) := by
      simp [Minefield.auto_step, hf, hcnt]
    rw [hauto]
    exact stepList_spec (mf.neighbors_coords x y) mf

/-- Witness for C4: chording the revealed single cell of a 1×1 grid (no
neighbours, zero flags) returns `Phew`. -/
theorem spec_c4_auto_step_witness :
    ((Minefield.new 1 1).step 0 0).2.field (0, 0) =
      some ⟨SpotState.RevealedEmpty 0⟩ ∧
    flagCount ((Minefield.new 1 1).step 0 0).2 0 0 = 0 ∧
    (((∀ pre c post,
         ((Minefield.new 1 1).step 0 0).2.neighbors_coords 0 0 = pre ++ c :: post →
         ((stepSeq ((Minefield.new 1 1).step 0 0).2 pre).step c.1 c.2).1 ≠ StepResult.Boom) ∧
       ((Minefield.new 1 1).step 0 0).2.auto_step 0 0 =
         (StepResult.Phew,
          stepSeq ((Minefield.new 1 1).step 0 0).2
            (((Minefield.new 1 1).step 0 0).2.neighbors_coords 0 0))) ∨
     (∃ pre c post,
       ((Minefield.new 1 1).step 0 0).2.neighbors_coords 0 0 = pre ++ c :: post ∧
       (∀ pre1 d post1, pre = pre1 ++ d :: post1 →
         ((stepSeq ((Minefield.new 1 1).step 0 0).2 pre1).step d.1 d.2).1 ≠ StepResult.Boom) ∧
       ((stepSeq ((Minefield.new 1 1).step 0 0).2 pre).step c.1 c.2).1 = StepResult.Boom ∧
       ((Minefield.new 1 1).step 0 0).2.auto_step 0 0 =
         (StepResult.Boom,
          ((stepSeq ((Minefield.new 1 1).step 0 0).2 pre).step c.1 c.2).2))) :=
  ⟨by decide, by decide,
   (spec_c4_auto_step ((Minefield.new 1 1).step 0 0).2 0 0).2.2
     ⟨SpotState.RevealedEmpty 0⟩ 0 (by decide) rfl (by decide)⟩

theorem countP_succ_le_length {α : Type} {l : List α} {p : α → Bool} {c : α}
    (hc : c ∈ l) (hp : p c = false) : l.countP p + 1 ≤ l.length := by
  induction l with
  | nil => cases hc
  | cons a t ih =>
    rw [List.countP_cons, List.length_cons]
    rcases List.mem_cons.mp hc with hac | hct
    · subst hac
      rw [hp]
      have ht : t.countP p ≤ t.length := List.countP_le_length p
      simp only [Bool.false_eq_true, if_false]
      omega
    · have ht := ih hct
      cases hpa : p a <;> simp [hpa] <;> omega

theorem length_neighborsC_le {w h x y : Nat} (hx : x + 1 ≤ 65535)
    (hy : y + 1 ≤ 65535) : (neighborsC w h x y).length ≤ 8 := by
  unfold neighborsC
  rw [Nat.min_eq_left hx, Nat.min_eq_left hy]
  have hlen : (List.range' (x - 1) (x + 1 + 1 - (x - 1)) ×ˢ
      List.range' (y - 1) (y + 1 + 1 - (y - 1))).length ≤ 9 := by
    rw [List.length_product, List.length_range', List.length_range']
    have h1 : x + 1 + 1 - (x - 1) ≤ 3 := by omega
    have h2 : y + 1 + 1 - (y - 1) ≤ 3 := by omega
    calc (x + 1 + 1 - (x - 1)) * (y + 1 + 1 - (y - 1)) ≤ 3 * 3 :=
          Nat.mul_le_mul h1 h2
      _ = 9 := rfl
  have hcen : ((x, y) : Nat × Nat) ∈ (List.range' (x - 1) (x + 1 + 1 - (x - 1)) ×ˢ
      List.range' (y - 1) (y + 1 + 1 - (y - 1))) :=
    List.mem_product.mpr ⟨mem_range'_iff.mpr ⟨by omega, by omega⟩,
      mem_range'_iff.mpr ⟨by omega, by omega⟩⟩
  have hfalse : (fun p : Nat × Nat => decide (p.1 < w) && decide (p.2 < h) &&
      !(decide (p.1 = x) && decide (p.2 = y))) (x, y) = false := by simp
  rw [← List.countP_eq_length_filter]
  have hc := @countP_succ_le_length (Nat × Nat)
    (List.range' (x - 1) (x + 1 + 1 - (x - 1)) ×ˢ
      List.range' (y - 1) (y + 1 + 1 - (y - 1)))
    (fun p : Nat × Nat => decide (p.1 < w) && decide (p.2 < h) &&
      !(decide (p.1 = x) && decide (p.2 = y))) (x, y) hcen hfalse
  omega

theorem floodLoopC_fst (fuel : Nat) (mf : Minefield)
    (stack : List (Nat × Nat)) :
    (floodLoopC fuel mf stack).1 = floodLoop fuel mf stack := by
  induction fuel generalizing mf stack with
  | zero => rfl
  | succ f ih =>
    cases stack with
    | nil => rfl
    | cons c rest =>
      simp only [floodLoopC, floodLoop]
      exact ih _ _

theorem floodLoopC_count (fuel : Nat) (mf : Minefield)
    (stack : List (Nat × Nat)) :
    (floodLoopC fuel mf stack).2 ≤ stack.length + hiddenCount mf := by
  induction fuel generalizing mf stack with
  | zero => simp [floodLoopC]
  | succ f ih =>
    cases stack with
    | nil => simp [floodLoopC]
    | cons c rest =>
      simp only [floodLoopC]
      have hv := floodVisit_measure mf c.1 c.2
      have hr := ih (floodVisit mf c.1 c.2).1 ((floodVisit mf c.1 c.2).2 ++ rest)
      rw [List.length_append] at hr
      simp only [List.length_cons]
      omega

theorem floodLoop_fuel_stable (f1 : Nat) (f2 : Nat) (mf : Minefield)
    (stack : List (Nat × Nat))
    (h1 : 2 * hiddenCount mf + stack.length ≤ f1)
    (h2 : 2 * hiddenCount mf + stack.length ≤ f2) :
    floodLoop f1 mf stack = floodLoop f2 mf stack := by
  induction f1 generalizing f2 mf stack with
  | zero =>
    have hnil : stack = [] := by
      cases stack with
      | nil => rfl
      | cons c rest => simp [List.length_cons] at h1
    subst hnil
    cases f2 <;> rfl
  | succ f ih =>
    cases stack with
    | nil => cases f2 <;> rfl
    | cons c rest =>
      cases f2 with
      | zero => simp [List.length_cons] at h2
      | succ g =>
        simp only [floodLoop]
        have hv := floodVisit_measure mf c.1 c.2
        refine ih g (floodVisit mf c.1 c.2).1 ((floodVisit mf c.1 c.2).2 ++ rest)
          ?_ ?_ <;> (rw [List.length_append]; simp only [List.length_cons] at h1 h2; omega)

/-- C8.  The flood-reveal loop terminates with a bounded iteration count:
`floodLoopC` (the loop instrumented with a pop counter) computes the same
field as `floodLoop`, its pop count is at most the initial stack size plus
the number of `HiddenEmpty` cells (each cell is pushed at most once, on
its `HiddenEmpty` → `RevealedEmpty` transition), the loop's result is
independent of the fuel once the fuel reaches the measure
`2·hidden + stack` (it runs to completion, which is how `step` invokes
it), in `step`'s invocation the count is at most `width·height`, and
`auto_step` iterates over at most 8 neighbours. -/
theorem spec_c8_termination :
    (∀ fuel mf stack, (floodLoopC fuel mf stack).1 = floodLoop fuel mf stack) ∧
    (∀ fuel mf stack,
      (floodLoopC fuel mf stack).2 ≤ stack.length + hiddenCount mf) ∧
    (∀ f1 f2 mf stack, 2 * hiddenCount mf + stack.length ≤ f1 →
      2 * hiddenCount mf + stack.length ≤ f2 →
      floodLoop f1 mf stack = floodLoop f2 mf stack) ∧
    (∀ mf x y n, WFdom mf →
      mf.field (x, y) = some ⟨SpotState.HiddenEmpty n⟩ →
      (floodLoopC (2 * mf.width * mf.height + 1)
        { mf with field := setF mf.field (x, y) ⟨SpotState.RevealedEmpty n⟩ }
        [(x, y)]).2 ≤ mf.width * mf.height) ∧
    (∀ mf x y, x + 1 ≤ 65535 → y + 1 ≤ 65535 →
      (Minefield.neighbors_coords mf x y).length ≤ 8) := by
  refine ⟨floodLoopC_fst, floodLoopC_count, floodLoop_fuel_stable, ?_, ?_⟩
  · intro mf x y n hwf hfld
    have hin : x < mf.width ∧ y < mf.height := (hwf (x, y)).mp (by rw [hfld]; rfl)
    have hdec := hiddenCount_update_reveal hfld hin.1 hin.2
    have hcnt := floodLoopC_count (2 * mf.width * mf.height + 1)
      { mf with field := setF mf.field (x, y) ⟨SpotState.RevealedEmpty n⟩ }
      [(x, y)]
    have hle := hiddenCount_le mf
    simp only [List.length_cons, List.length_nil] at hcnt
    omega
  · intro mf x y hx hy
    exact length_neighborsC_le hx hy

/-- Witness for C8: the loop as run by stepping the single cell of the
fresh 1×1 grid pops at most one element, and a corner cell has at most 8
neighbours. -/
theorem spec_c8_termination_witness :
    WFdom (Minefield.new 1 1) ∧
    (Minefield.new 1 1).field (0, 0) = some ⟨SpotState.HiddenEmpty 0⟩ ∧
    (floodLoopC (2 * (Minefield.new 1 1).width * (Minefield.new 1 1).height + 1)
      { Minefield.new 1 1 with
        field := setF (Minefield.new 1 1).field (0, 0) ⟨SpotState.RevealedEmpty 0⟩ }
      [(0, 0)]).2 ≤ (Minefield.new 1 1).width * (Minefield.new 1 1).height ∧
    (Minefield.neighbors_coords (Minefield.new 1 1) 0 0).length ≤ 8 :=
  ⟨WFdom_new 1 1, by decide,
   spec_c8_termination.2.2.2.1 (Minefield.new 1 1) 0 0 0 (WFdom_new 1 1) (by decide),
   spec_c8_termination.2.2.2.2 (Minefield.new 1 1) 0 0 (by decide) (by decide)⟩

theorem getD_mem_of_lt : ∀ (l : List Nat) (i : Nat), i < l.length →
    l.getD i 0 ∈ l := by
  intro l
  induction l with
  | nil => intro i hi; simp at hi
  | cons x xs ih =>
    intro i hi
    cases i with
    | zero => simp
    | succ j =>
      simp only [List.getD_cons_succ]
      exact List.mem_cons_of_mem x (ih j (by simpa using hi))

theorem getD_last_eq_getLast : ∀ (l : List Nat) (h : l ≠ []),
    l.getD (l.length - 1) 0 = l.getLast h := by
  intro l
  induction l with
  | nil => intro h; exact absurd rfl h
  | cons x xs ih =>
    intro h
    cases xs with
    | nil => rfl
    | cons y ys =>
      rw [List.getLast_cons (List.cons_ne_nil y ys)]
      rw [show (x :: y :: ys).length - 1 = (y :: ys).length - 1 + 1 by
        simp]
      rw [List.getD_cons_succ]
      exact ih (List.cons_ne_nil y ys)

theorem swapRemove_length {l : List Nat} (i : Nat) :
    (swapRemove l i).2.length = l.length - 1 := by
  simp [swapRemove]

theorem swapRemove_count : ∀ (l : List Nat) (i : Nat), i < l.length →
    ∀ a : Nat,
    (swapRemove l i).2.count a + (if l.getD i 0 = a then 1 else 0) =
      l.count a := by
  intro l
  induction l with
  | nil => intro i hi; simp at hi
  | cons x xs ih =>
    intro i hi a
    cases i with
    | zero =>
      cases xs with
      | nil =>
        by_cases hxa : x = a <;> simp [swapRemove, List.count_cons, hxa]
      | cons y ys =>
        have hyys : (y :: ys) ≠ [] := List.cons_ne_nil y ys
        have hlast : (x :: y :: ys).getD ((x :: y :: ys).length - 1) 0 =
            (y :: ys).getLast hyys := by
          rw [show (x :: y :: ys).length - 1 = (y :: ys).length - 1 + 1 by simp,
            List.getD_cons_succ]
          exact getD_last_eq_getLast (y :: ys) hyys
        simp only [swapRemove, hlast, List.set_cons_zero, List.getD_cons_zero]
        rw [List.dropLast_cons₂]
        have hsplit : (y :: ys).dropLast ++ [(y :: ys).getLast hyys] = y :: ys :=
          List.dropLast_append_getLast hyys
        have hcount : (y :: ys).count a =
            ((y :: ys).dropLast).count a +
            (if (y :: ys).getLast hyys = a then 1 else 0) := by
          conv_lhs => rw [← hsplit]
          rw [List.count_append]
          by_cases hg : (y :: ys).getLast hyys = a <;>
            simp [hg, List.count_cons]
        rw [List.count_cons, List.count_cons, hcount]
        by_cases hg : (y :: ys).getLast hyys = a <;>
          by_cases hxa : x = a <;>
          simp [hg, hxa]
    | succ j =>
      cases xs with
      | nil => simp at hi
      | cons y ys =>
        have hj : j < (y :: ys).length := by simpa using hi
        have hlast : (x :: y :: ys).getD ((x :: y :: ys).length - 1) 0 =
            (y :: ys).getD ((y :: ys).length - 1) 0 := by
          rw [show (x :: y :: ys).length - 1 = (y :: ys).length - 1 + 1 by simp,
            List.getD_cons_succ]
        have hset : ((x :: y :: ys).set (j + 1)
              ((x :: y :: ys).getD ((x :: y :: ys).length - 1) 0)) =
            x :: ((y :: ys).set j ((y :: ys).getD ((y :: ys).length - 1) 0)) := by
          rw [List.set_cons_succ, hlast]
        have hne : ((y :: ys).set j ((y :: ys).getD ((y :: ys).length - 1) 0)) ≠ [] := by
          intro hh
          have := congrArg List.length hh
          simp at this
        have ihj := ih j hj a
        simp only [swapRemove] at ihj
        simp only [swapRemove, hset, List.getD_cons_succ]
        rw [List.dropLast_cons_of_ne_nil hne, List.count_cons, List.count_cons]
        omega

theorem swapRemove_count_le {l : List Nat} {i : Nat} (hi : i < l.length)
    (a : Nat) : (swapRemove l i).2.count a ≤ l.count a := by
  have hc := swapRemove_count l i hi a
  omega

theorem swapRemove_nodup {l : List Nat} {i : Nat} (hi : i < l.length)
    (hn : l.Nodup) : (swapRemove l i).2.Nodup := by
  rw [List.nodup_iff_count_le_one] at hn ⊢
  intro a
  have h1 := swapRemove_count_le hi a
  have h2 := hn a
  omega

theorem swapRemove_subset {l : List Nat} {i : Nat} (hi : i < l.length)
    {a : Nat} (ha : a ∈ (swapRemove l i).2) : a ∈ l := by
  rw [← List.count_pos_iff] at ha ⊢
  have := swapRemove_count_le hi a
  omega

theorem swapRemove_ne_val {l : List Nat} {i : Nat} (hi : i < l.length)
    (hn : l.Nodup) {a : Nat} (ha : a ∈ (swapRemove l i).2) :
    a ≠ l.getD i 0 := by
  intro hh
  have hc := swapRemove_count l i hi a
  rw [if_pos hh.symm] at hc
  have hmem : 0 < (swapRemove l i).2.count a := List.count_pos_iff.mpr ha
  have hle := List.nodup_iff_count_le_one.mp hn a
  omega

theorem bumpSpot_mine_iff (o : Option Spot) :
    Option.map bumpSpot o = some ⟨SpotState.HiddenMine⟩ ↔
      o = some ⟨SpotState.HiddenMine⟩ := by
  cases o with
  | none => simp
  | some s =>
    obtain ⟨st⟩ := s
    cases st <;> simp [bumpSpot]

theorem place_mine_field {mf : Minefield} {x y : Nat} {s : Spot}
    (hs : mf.field (x, y) = some s) (hemp : s.state.isEmptyFamily = true) :
    (mf.place_mine x y).field (x, y) = some ⟨SpotState.HiddenMine⟩ ∧
    ∀ p, p ≠ (x, y) →
      (mf.place_mine x y).field p =
        if p ∈ neighborsC mf.width mf.height x y then
          Option.map bumpSpot (mf.field p)
        else mf.field p := by
  obtain ⟨st⟩ := s
  cases st <;> first
    | (exact Bool.noConfusion hemp)
    | (simp only [Minefield.place_mine, hs, Minefield.neighbors_coords]
       constructor
       · rw [foldl_bumpAt_not_mem (fun hmem => (mem_neighborsC_ne hmem) rfl)]
         exact setF_same _ _ _
       · intro p hp
         rw [foldl_bumpAt_field (nodup_neighborsC _ _ _ _) _ p]
         by_cases hmem : p ∈ neighborsC mf.width mf.height x y
         · rw [if_pos hmem, if_pos hmem]
           show Option.map bumpSpot (setF mf.field (x, y) ⟨SpotState.HiddenMine⟩ p) =
             Option.map bumpSpot (mf.field p)
           rw [setF_other _ _ _ hp]
         · rw [if_neg hmem, if_neg hmem]
           show setF mf.field (x, y) ⟨SpotState.HiddenMine⟩ p = mf.field p
           rw [setF_other _ _ _ hp])

theorem mineCellCount_place {mf : Minefield} {x y : Nat} {s : Spot}
    (hs : mf.field (x, y) = some s) (hemp : s.state.isEmptyFamily = true)
    (hx : x < mf.width) (hy : y < mf.height) :
    mineCellCount (mf.place_mine x y) = mineCellCount mf + 1 := by
  have hchar := place_mine_field hs hemp
  unfold mineCellCount
  rw [(place_frame mf x y).1, (place_frame mf x y).2.1]
  have hxy : (x, y) ∈ allCoords mf.width mf.height := by
    rw [mem_allCoords]
    exact ⟨hx, hy⟩
  refine countP_update_succ (nodup_allCoords _ _) hxy ?_ ?_ ?_
  · intro a ha hane
    show decide ((mf.place_mine x y).field a = some ⟨SpotState.HiddenMine⟩) =
      decide (mf.field a = some ⟨SpotState.HiddenMine⟩)
    rw [hchar.2 a hane]
    by_cases hmem : a ∈ neighborsC mf.width mf.height x y
    · rw [if_pos hmem]
      exact decide_eq_decide.mpr (bumpSpot_mine_iff (mf.field a))
    · rw [if_neg hmem]
  · show decide ((mf.place_mine x y).field (x, y) = some ⟨SpotState.HiddenMine⟩) = true
    rw [hchar.1]
    simp
  · show decide (mf.field (x, y) = some ⟨SpotState.HiddenMine⟩) = false
    rw [hs]
    obtain ⟨st⟩ := s
    cases st <;> first
      | (exact Bool.noConfusion hemp)
      | simp

theorem placeLoop_count : ∀ (k : Nat) (mf : Minefield) (rem draws : List Nat),
    rem.Nodup →
    (∀ j ∈ rem, j < mf.width * mf.height) →
    (∀ j ∈ rem, ∃ n, mf.field (j % mf.width, j / mf.width) =
      some ⟨SpotState.HiddenEmpty n⟩) →
    k ≤ rem.length →
    mineCellCount (placeLoop mf k rem draws) = mineCellCount mf + k := by
  intro k
  induction k with
  | zero => intro mf rem draws _ _ _ _; rfl
  | succ k1 ih =>
    intro mf rem draws hnd hbound hempty hk
    have hrem : 0 < rem.length := by omega
    simp only [placeLoop]
    generalize hI : draws.headD 0 % rem.length = i
    have hi : i < rem.length := by
      rw [← hI]
      exact Nat.mod_lt _ hrem
    have hval : (swapRemove rem i).1 = rem.getD i 0 := rfl
    have hmem : rem.getD i 0 ∈ rem := getD_mem_of_lt rem i hi
    have hidx : rem.getD i 0 < mf.width * mf.height := hbound _ hmem
    obtain ⟨n, hcell⟩ := hempty _ hmem
    have hw : 0 < mf.width := by
      rcases Nat.eq_zero_or_pos mf.width with h0 | h
      · rw [h0] at hidx
        simp at hidx
      · exact h
    have hx : rem.getD i 0 % mf.width < mf.width := Nat.mod_lt _ hw
    have hy : rem.getD i 0 / mf.width < mf.height := by
      rw [Nat.div_lt_iff_lt_mul hw]
      rw [Nat.mul_comm] at hidx
      exact hidx
    have hplace := mineCellCount_place hcell rfl hx hy
    rw [hval]
    have hpf := place_frame mf (rem.getD i 0 % mf.width) (rem.getD i 0 / mf.width)
    rw [ih (mf.place_mine (rem.getD i 0 % mf.width) (rem.getD i 0 / mf.width))
        (swapRemove rem i).2 draws.tail
        (swapRemove_nodup hi hnd)
        (by
          intro j hj
          rw [hpf.1, hpf.2.1]
          exact hbound j (swapRemove_subset hi hj))
        (by
          intro j hj
          rw [hpf.1]
          have hjrem := swapRemove_subset hi hj
          have hjne : j ≠ rem.getD i 0 := swapRemove_ne_val hi hnd hj
          obtain ⟨m, hm⟩ := hempty j hjrem
          have hcne : ((j % mf.width, j / mf.width) : Nat × Nat) ≠
              (rem.getD i 0 % mf.width, rem.getD i 0 / mf.width) := by
            intro hpair
            apply hjne
            have h1 : j % mf.width = rem.getD i 0 % mf.width :=
              congrArg Prod.fst hpair
            have h2 : j / mf.width = rem.getD i 0 / mf.width :=
              congrArg Prod.snd hpair
            have hsplit := Nat.div_add_mod j mf.width
            rw [h1, h2, Nat.div_add_mod] at hsplit
            exact hsplit.symm
          rw [(place_mine_field hcell rfl).2 _ hcne]
          by_cases hmemn : ((j % mf.width, j / mf.width) : Nat × Nat) ∈
              neighborsC mf.width mf.height (rem.getD i 0 % mf.width)
              (rem.getD i 0 / mf.width)
          · rw [if_pos hmemn, hm]
            exact ⟨m + 1, rfl⟩
          · rw [if_neg hmemn]
            exact ⟨m, hm⟩)
        (by
          rw [swapRemove_length]
          omega),
      hplace]
    omega

theorem placeLoop_take : ∀ (k : Nat) (mf : Minefield) (rem draws : List Nat),
    placeLoop mf k rem draws = placeLoop mf k rem (draws.take k) := by
  intro k
  induction k with
  | zero => intro mf rem draws; rfl
  | succ k1 ih =>
    intro mf rem draws
    cases draws with
    | nil => simp
    | cons d ds =>
      simp only [placeLoop, List.take_succ_cons, List.headD_cons, List.tail_cons]
      exact ih _ _ ds

theorem mineCellCount_set_mines (mf : Minefield) (m : Nat) :
    mineCellCount ({ mf with mines := m } : Minefield) = mineCellCount mf := rfl

theorem mineCellCount_new (w h : Nat) : mineCellCount (Minefield.new w h) = 0 := by
  unfold mineCellCount
  rw [List.countP_eq_zero]
  intro p hp
  have hpin := mem_allCoords.mp hp
  simp only [Minefield.new] at hpin ⊢
  simp only [decide_eq_true_eq]
  rw [if_pos hpin]
  simp [Spot.default]

/-- C5.  Starting from any freshly constructed grid, `with_mines(count)`
stores `min(count, width·height)` as the mine count, leaves exactly that
many cells in the `HiddenMine` state (the pool of remaining indices makes
every draw hit a fresh cell — no rejection sampling), and consumes exactly
that many random draws: the result only depends on the first
`min(count, width·height)` elements of the draw list.  This holds for
every draw list (each draw is reduced modulo the pool size, so in-range
draw sequences are exactly the lists taken modulo). -/
theorem spec_c5_with_mines (w h c : Nat) (draws : List Nat) :
    ((Minefield.new w h).with_mines c draws).mines =
      min c ((Minefield.new w h).width * (Minefield.new w h).height) ∧
    mineCellCount ((Minefield.new w h).with_mines c draws) =
      min c ((Minefield.new w h).width * (Minefield.new w h).height) ∧
    (Minefield.new w h).with_mines c draws =
      (Minefield.new w h).with_mines c
        (draws.take (min c ((Minefield.new w h).width * (Minefield.new w h).height))) := by
  have hmin : (if c ≤ (Minefield.new w h).width * (Minefield.new w h).height
      then c else (Minefield.new w h).width * (Minefield.new w h).height) =
      min c ((Minefield.new w h).width * (Minefield.new w h).height) := by
    rw [Nat.min_def]
  refine ⟨?_, ?_, ?_⟩
  · simp only [Minefield.with_mines]
    rw [(placeLoop_frame _ _ _ _).2.2]
    exact hmin
  · simp only [Minefield.with_mines]
    rw [placeLoop_count _ _ _ _ (List.nodup_range _)
        (by
          intro j hj
          simpa using List.mem_range.mp hj)
        (by
          intro j hj
          have hjlt : j < (Minefield.new w h).width * (Minefield.new w h).height :=
            List.mem_range.mp hj
          have hw : 0 < (Minefield.new w h).width := by
            rcases Nat.eq_zero_or_pos (Minefield.new w h).width with h0 | hpos
            · rw [h0] at hjlt
              simp at hjlt
            · exact hpos
          have hx : j % (Minefield.new w h).width < (Minefield.new w h).width :=
            Nat.mod_lt _ hw
          have hy : j / (Minefield.new w h).width < (Minefield.new w h).height := by
            rw [Nat.div_lt_iff_lt_mul hw]
            rw [Nat.mul_comm] at hjlt
            exact hjlt
          refine ⟨0, ?_⟩
          show (Minefield.new w h).field _ = _
          simp only [Minefield.new]
          rw [if_pos ⟨hx, hy⟩]
          rfl)
        (by
          rw [List.length_range]
          split <;> omega),
      mineCellCount_set_mines, mineCellCount_new, hmin]
    omega
  · simp only [Minefield.with_mines]
    rw [← hmin, placeLoop_take]

theorem place_mine_mine_eq {mf : Minefield} {x y : Nat} {s : Spot}
    (hs : mf.field (x, y) = some s) (hmine : s.state.isMineFamily = true) :
    mf.place_mine x y = mf := by
  obtain ⟨st⟩ := s
  cases st <;> first
    | (exact Bool.noConfusion hmine)
    | (simp only [Minefield.place_mine, hs])

theorem adjacentB_symm {x y a b : Nat} :
    adjacentB x y (a, b) = true ↔ adjacentB a b (x, y) = true := by
  rw [adjacentB_true_iff, adjacentB_true_iff]
  simp only
  omega

theorem spotObs_bump (t : Spot) :
    spotObs (bumpSpot t) =
      ((spotObs t).1, if (spotObs t).1 then 0 else (spotObs t).2 + 1) := by
  obtain ⟨st⟩ := t
  cases st <;> rfl

theorem fieldObs_some_iff {mf : Minefield} {p : Nat × Nat} {m : Bool} {n : Nat} :
    fieldObs mf p = some (m, n) ↔
      ∃ s, mf.field p = some s ∧ spotObs s = (m, n) := by
  unfold fieldObs
  cases hf : mf.field p with
  | none => simp
  | some s => simp

theorem isMineB_eq_of_fieldObs {a b : Minefield} {p : Nat × Nat}
    (h : fieldObs a p = fieldObs b p) : isMineB a p = isMineB b p := by
  unfold fieldObs at h
  unfold isMineB
  cases hap : a.field p with
  | none =>
    cases hbp : b.field p with
    | none => rfl
    | some t => rw [hap, hbp] at h; simp at h
  | some s =>
    cases hbp : b.field p with
    | none => rw [hap, hbp] at h; simp at h
    | some t =>
      rw [hap, hbp] at h
      simp only [Option.map_some', Option.some.injEq] at h
      show (spotObs s).1 = (spotObs t).1
      rw [h]

theorem mineCountAround_eq_of_obsEq {a b : Minefield} (hobs : obsEq a b)
    (x y : Nat) : mineCountAround a x y = mineCountAround b x y := by
  unfold mineCountAround
  rw [hobs.1, hobs.2.1]
  exact List.countP_congr fun p hp => by
    rw [isMineB_eq_of_fieldObs (hobs.2.2 p)]

theorem countsConsistent_of_obsEq {a b : Minefield} (hobs : obsEq a b)
    (hc : countsConsistent b) : countsConsistent a := by
  intro x y n hn
  rw [hobs.2.2 (x, y)] at hn
  rw [mineCountAround_eq_of_obsEq hobs]
  exact hc x y n hn

theorem obsEq_trans {a b c : Minefield} (h1 : obsEq a b) (h2 : obsEq b c) :
    obsEq a c :=
  ⟨h1.1.trans h2.1, h1.2.1.trans h2.2.1, fun p => (h1.2.2 p).trans (h2.2.2 p)⟩

theorem obsEq_of_reaches {mf0 mf : Minefield} (hr : ReachesFrom mf0 mf) :
    obsEq mf mf0 := by
  induction hr with
  | refl => exact ⟨rfl, rfl, fun p => rfl⟩
  | stepOp mf x y _ ih =>
    exact obsEq_trans
      ⟨(step_frame mf x y).1, (step_frame mf x y).2.1, (step_frame mf x y).2.2.2⟩ ih
  | flagOp mf x y _ ih =>
    exact obsEq_trans
      ⟨(toggle_frame mf x y).1, (toggle_frame mf x y).2.1,
       (toggle_frame mf x y).2.2.2⟩ ih
  | autoOp mf x y _ ih =>
    exact obsEq_trans
      ⟨(auto_frame mf x y).1, (auto_frame mf x y).2.1, (auto_frame mf x y).2.2.2⟩ ih

theorem countsConsistent_new (w h : Nat) :
    countsConsistent (Minefield.new w h) := by
  intro x y n hn
  rw [fieldObs_some_iff] at hn
  obtain ⟨s, hs, hobs⟩ := hn
  have hn0 : n = 0 := by
    simp only [Minefield.new] at hs
    by_cases hin : x < (if w = 0 then 1 else w) ∧ y < (if h = 0 then 1 else h)
    · rw [if_pos hin] at hs
      have h1 := Option.some.inj hs
      rw [← h1] at hobs
      have h2 : ((false, n) : Bool × Nat).2 = (spotObs Spot.default).2 :=
        congrArg Prod.snd hobs.symm
      simpa [Spot.default, spotObs] using h2
    · rw [if_neg hin] at hs
      exact Option.noConfusion hs
  subst hn0
  unfold mineCountAround
  rw [Eq.comm, List.countP_eq_zero]
  intro p hp
  have hpin := (mem_adjacentCoords.mp hp).1
  have hpin2 := (mem_adjacentCoords.mp hp).2.1
  unfold isMineB
  simp only [Minefield.new] at hpin hpin2 ⊢
  rw [if_pos ⟨hpin, hpin2⟩]
  simp [Spot.default, spotObs]

theorem spotObs_fst_false_of_empty {s : Spot}
    (h : s.state.isEmptyFamily = true) : (spotObs s).1 = false := by
  obtain ⟨st⟩ := s
  cases st <;> first
    | rfl
    | exact Bool.noConfusion h

theorem countsConsistent_place {mf : Minefield} (hwf : WFdom mf)
    (hwb : mf.width ≤ 65535) (hhb : mf.height ≤ 65535)
    (hc : countsConsistent mf) (x y : Nat) :
    countsConsistent (mf.place_mine x y) := by
  cases hs : mf.field (x, y) with
  | none =>
    have heq : mf.place_mine x y = mf := by simp [Minefield.place_mine, hs]
    rw [heq]
    exact hc
  | some s =>
    by_cases hmine : s.state.isMineFamily = true
    · rw [place_mine_mine_eq hs hmine]
      exact hc
    · have hemp : s.state.isEmptyFamily = true := by
        obtain ⟨st⟩ := s
        cases st <;>
          simp_all [SpotState.isEmptyFamily, SpotState.isMineFamily]
      have hxy := (hwf (x, y)).mp (by rw [hs]; rfl)
      have hchar := place_mine_field hs hemp
      have hdims := place_frame mf x y
      have hwf' := WFdom_place hwf x y
      intro a b n hobs'
      rw [fieldObs_some_iff] at hobs'
      obtain ⟨s', hs', hsobs⟩ := hobs'
      by_cases hab : ((a, b) : Nat × Nat) = (x, y)
      · rw [hab, hchar.1] at hs'
        have h1 := Option.some.inj hs'
        rw [← h1] at hsobs
        exact Bool.noConfusion (congrArg Prod.fst hsobs)
      · have hbounds : a < mf.width ∧ b < mf.height := by
          have hsome := (hwf' (a, b)).mp (by rw [hs']; rfl)
          rwa [hdims.1, hdims.2.1] at hsome
        have hx65 : x + 1 ≤ 65535 := by omega
        have hy65 : y + 1 ≤ 65535 := by omega
        rw [hchar.2 (a, b) hab] at hs'
        have hmca : mineCountAround (mf.place_mine x y) a b =
            (adjacentCoords mf.width mf.height a b).countP
              (isMineB (mf.place_mine x y)) := by
          unfold mineCountAround
          rw [hdims.1, hdims.2.1]
        have hagree : ∀ p, p ≠ (x, y) →
            isMineB (mf.place_mine x y) p = isMineB mf p := by
          intro p hp
          unfold isMineB
          rw [hchar.2 p hp]
          by_cases hmem : p ∈ neighborsC mf.width mf.height x y
          · rw [if_pos hmem]
            cases hfp : mf.field p with
            | none => rfl
            | some t =>
              simp only [Option.map_some']
              show (spotObs (bumpSpot t)).1 = (spotObs t).1
              rw [spotObs_bump]
          · rw [if_neg hmem]
        by_cases hmem : ((a, b) : Nat × Nat) ∈ neighborsC mf.width mf.height x y
        · rw [if_pos hmem] at hs'
          cases hfab : mf.field (a, b) with
          | none =>
            rw [hfab] at hs'
            exact Option.noConfusion hs'
          | some t =>
            rw [hfab] at hs'
            simp only [Option.map_some'] at hs'
            have hst : s' = bumpSpot t := (Option.some.inj hs').symm
            rw [hst, spotObs_bump] at hsobs
            have hfst : (spotObs t).1 = false := by
              simpa using congrArg Prod.fst hsobs
            have hsnd : (spotObs t).2 + 1 = n := by
              have h2 := congrArg Prod.snd hsobs
              rw [hfst] at h2
              simpa using h2
            have hteta : spotObs t = (false, (spotObs t).2) := by
              rw [← hfst]
            have hold : (spotObs t).2 = mineCountAround mf a b := by
              apply hc a b
              rw [fieldObs_some_iff]
              exact ⟨t, hfab, hteta⟩
            have hadj : ((x, y) : Nat × Nat) ∈
                adjacentCoords mf.width mf.height a b := by
              rw [mem_adjacentCoords]
              refine ⟨hxy.1, hxy.2, ?_⟩
              have hadj1 := ((mem_neighborsC_iff_adjacent hx65 hy65).mp hmem).1
              exact adjacentB_symm.mp hadj1
            have hp1 : isMineB (mf.place_mine x y) (x, y) = true := by
              unfold isMineB
              rw [hchar.1]
              rfl
            have hp2 : isMineB mf (x, y) = false := by
              unfold isMineB
              rw [hs]
              exact spotObs_fst_false_of_empty hemp
            have hcnt := countP_update_succ (nodup_adjacentCoords _ _ _ _)
              hadj (fun p hp hpne => hagree p hpne) hp1 hp2
            rw [hmca, hcnt]
            unfold mineCountAround at hold
            omega
        · rw [if_neg hmem] at hs'
          have hold : n = mineCountAround mf a b := by
            apply hc a b
            rw [fieldObs_some_iff]
            exact ⟨s', hs', hsobs⟩
          have hnotadj : ((x, y) : Nat × Nat) ∉
              adjacentCoords mf.width mf.height a b := by
            intro hin
            apply hmem
            rw [mem_neighborsC_iff_adjacent hx65 hy65]
            have h3 := mem_adjacentCoords.mp hin
            exact ⟨adjacentB_symm.mpr h3.2.2, hbounds.1, hbounds.2⟩
          have hcong : (adjacentCoords mf.width mf.height a b).countP
                (isMineB (mf.place_mine x y)) =
              (adjacentCoords mf.width mf.height a b).countP (isMineB mf) :=
            List.countP_congr fun p hp => by
              have hpne : p ≠ (x, y) := fun hh => hnotadj (hh ▸ hp)
              rw [hagree p hpne]
          rw [hmca, hcong]
          unfold mineCountAround at hold
          exact hold

theorem countsConsistent_placeLoop : ∀ (k : Nat) (mf : Minefield)
    (rem draws : List Nat), WFdom mf → mf.width ≤ 65535 →
    mf.height ≤ 65535 → countsConsistent mf →
    countsConsistent (placeLoop mf k rem draws) := by
  intro k
  induction k with
  | zero => intro mf rem draws _ _ _ hc; exact hc
  | succ k1 ih =>
    intro mf rem draws hwf hwb hhb hc
    simp only [placeLoop]
    refine ih _ _ _ (WFdom_place hwf _ _) ?_ ?_
      (countsConsistent_place hwf hwb hhb hc _ _)
    · rw [(place_frame mf _ _).1]
      exact hwb
    · rw [(place_frame mf _ _).2.1]
      exact hhb

theorem countsConsistent_base (w h c : Nat) (draws : List Nat)
    (hw : w ≤ 65535) (hh : h ≤ 65535) :
    countsConsistent ((Minefield.new w h).with_mines c draws) := by
  simp only [Minefield.with_mines]
  refine countsConsistent_placeLoop _ _ _ _
    (WFdom_set_mines _ (WFdom_new w h)) ?_ ?_ (countsConsistent_new w h)
  · show (Minefield.new w h).width ≤ 65535
    simp only [Minefield.new]
    split <;> omega
  · show (Minefield.new w h).height ≤ 65535
    simp only [Minefield.new]
    split <;> omega

/-- C3.  For any grid with `u16`-representable dimensions, in every state
reachable from `new(w,h).with_mines(c)` (one mine-placement call) by any
sequence of `step`, `toggle_flag` and `auto_step` calls, every empty-family
cell's `neighboring_mines` counter equals the exact number of its
in-bounds adjacent cells (`adjacentCoords`, the spec-level up-to-8
neighbourhood) holding a mine — and in fact the whole per-cell observable
(mine placement and counter) is literally unchanged from the
post-placement state, so the counters are never changed after placement. -/
theorem spec_c3_counts (w h c : Nat) (draws : List Nat) (mf : Minefield)
    (hw : w ≤ 65535) (hh : h ≤ 65535)
    (hr : ReachesFrom ((Minefield.new w h).with_mines c draws) mf) :
    countsConsistent mf ∧
    (∀ p, fieldObs mf p =
      fieldObs ((Minefield.new w h).with_mines c draws) p) := by
  have hobs := obsEq_of_reaches hr
  exact ⟨countsConsistent_of_obsEq hobs
    (countsConsistent_base w h c draws hw hh), hobs.2.2⟩

/-- Witness for C3: the freshly placed (mine-free) 1×1 grid itself. -/
theorem spec_c3_counts_witness :
    1 ≤ 65535 ∧
    ReachesFrom ((Minefield.new 1 1).with_mines 0 [])
      ((Minefield.new 1 1).with_mines 0 []) ∧
    (countsConsistent ((Minefield.new 1 1).with_mines 0 []) ∧
     ∀ p, fieldObs ((Minefield.new 1 1).with_mines 0 []) p =
       fieldObs ((Minefield.new 1 1).with_mines 0 []) p) :=
  ⟨by decide, ReachesFrom.refl,
   spec_c3_counts 1 1 0 [] ((Minefield.new 1 1).with_mines 0 [])
     (by decide) (by decide) ReachesFrom.refl⟩

theorem revealSpotOpt_not_hidden (o : Option Spot) (n : Nat) :
    revealSpotOpt o ≠ some ⟨SpotState.HiddenEmpty n⟩ := by
  cases o with
  | none => simp [revealSpotOpt]
  | some t =>
    obtain ⟨st⟩ := t
    cases st <;> simp [revealSpotOpt]

theorem floodLoop_inv (mf : Minefield) (s : Nat × Nat) :
    ∀ (fuel : Nat) (g : Minefield) (stack : List (Nat × Nat)),
    2 * hiddenCount g + stack.length ≤ fuel →
    floodInvA mf s g → floodInvB mf s stack → floodInvC mf s g stack →
    floodInvA mf s (floodLoop fuel g stack) ∧
    floodInvC mf s (floodLoop fuel g stack) [] := by
  intro fuel
  induction fuel with
  | zero =>
    intro g stack hm hA hB hC
    have hnil : stack = [] := by
      cases stack with
      | nil => rfl
      | cons c rest => simp [List.length_cons] at hm
    subst hnil
    exact ⟨hA, hC⟩
  | succ f ih =>
    intro g stack hm hA hB hC
    cases stack with
    | nil => exact ⟨hA, hC⟩
    | cons c rest =>
      simp only [floodLoop]
      obtain ⟨hcF, hcZ⟩ := hB c (List.mem_cons_self c rest)
      have hnb : g.neighbors_coords c.1 c.2 = mf.neighbors_coords c.1 c.2 := by
        unfold Minefield.neighbors_coords
        rw [hA.1, hA.2.1]
      have hvf := floodVisit_field g c.1 c.2
      have hvd := floodVisit_dims g c.1 c.2
      have hvmeas := floodVisit_measure g c.1 c.2
      -- measure for the recursive call
      have hm2 : 2 * hiddenCount (floodVisit g c.1 c.2).1 +
          ((floodVisit g c.1 c.2).2 ++ rest).length ≤ f := by
        rw [List.length_append]
        simp only [List.length_cons] at hm
        omega
      -- InvA for the visited state
      have hA2 : floodInvA mf s (floodVisit g c.1 c.2).1 := by
        refine ⟨hvd.1.trans hA.1, hvd.2.1.trans hA.2.1, ?_⟩
        intro p
        rw [hvf p, hnb]
        by_cases hpm : p ∈ mf.neighbors_coords c.1 c.2
        · rw [if_pos hpm]
          rcases hA.2.2 p with hL | ⟨n, hf1, hgp, hFl⟩
          · cases hgp : g.field p with
            | none =>
              left
              rw [hgp] at hL
              rw [← hL]
              rfl
            | some t =>
              obtain ⟨st⟩ := t
              rw [hgp] at hL
              cases st with
              | HiddenEmpty n =>
                right
                refine ⟨n, hL.symm ▸ rfl, rfl, ?_⟩
                exact Flood.extend c p hcF hcZ hpm
              | HiddenMine => left; rw [← hL]; rfl
              | FlaggedEmpty n => left; rw [← hL]; rfl
              | FlaggedMine => left; rw [← hL]; rfl
              | RevealedEmpty n => left; rw [← hL]; rfl
              | ExplodedMine => left; rw [← hL]; rfl
          · right
            rw [hgp]
            exact ⟨n, hf1, rfl, hFl⟩
        · rw [if_neg hpm]
          exact hA.2.2 p
      -- InvB for the new stack
      have hB2 : floodInvB mf s ((floodVisit g c.1 c.2).2 ++ rest) := by
        intro d hd
        rcases List.mem_append.mp hd with hdv | hdr
        · have hdi := mem_floodVisit_stack.mp hdv
          rw [hnb] at hdi
          have hdF : Flood mf s d := Flood.extend c d hcF hcZ hdi.1
          refine ⟨hdF, ?_⟩
          rcases hA.2.2 d with hL | ⟨n, hf1, hgp, hFl⟩
          · rw [hdi.2] at hL
            by_cases hds : d = s
            · rw [hds, setF_same] at hL
              exact absurd (congrArg Spot.state (Option.some.inj hL.symm))
                (by simp)
            · rw [setF_other _ _ _ hds] at hL
              exact hL.symm
          · rw [hdi.2] at hgp
            exact absurd (congrArg Spot.state (Option.some.inj hgp))
              (by simp)
        · exact hB d (List.mem_cons_of_mem c hdr)
      -- InvC for the visited state and new stack
      have hC2 : floodInvC mf s (floodVisit g c.1 c.2).1
          ((floodVisit g c.1 c.2).2 ++ rest) := by
        intro q hqF hqZ hqRev
        by_cases hqc : q = c
        · subst hqc
          right
          intro d hdm n
          rw [hvf d, hnb, if_pos hdm]
          exact revealSpotOpt_not_hidden _ n
        · rw [hvf q, hnb] at hqRev
          by_cases hqm : q ∈ mf.neighbors_coords c.1 c.2
          · rw [if_pos hqm] at hqRev
            cases hgq : g.field q with
            | none => rw [hgq] at hqRev; exact absurd hqRev (by simp [revealSpotOpt])
            | some t =>
              obtain ⟨st⟩ := t
              rw [hgq] at hqRev
              cases st with
              | HiddenEmpty n =>
                -- q freshly revealed with counter n = 0: it was pushed
                have hn0 : n = 0 := by
                  have h1 := congrArg Spot.state (Option.some.inj hqRev)
                  simpa using h1
                left
                apply List.mem_append.mpr
                left
                rw [mem_floodVisit_stack, hnb]
                subst hn0
                exact ⟨hqm, hgq⟩
              | RevealedEmpty n =>
                -- q was already revealed in g
                have hgq0 : g.field q = some ⟨SpotState.RevealedEmpty 0⟩ := by
                  rw [hgq]
                  exact hqRev
                rcases hC q hqF hqZ hgq0 with hqin | hqnb
                · rcases List.mem_cons.mp hqin with hh | hh
                  · exact absurd hh hqc
                  · left
                    exact List.mem_append.mpr (Or.inr hh)
                · right
                  intro d hdm m
                  rw [hvf d, hnb]
                  by_cases hdc : d ∈ mf.neighbors_coords c.1 c.2
                  · rw [if_pos hdc]
                    exact revealSpotOpt_not_hidden _ m
                  · rw [if_neg hdc]
                    exact hqnb d hdm m
              | HiddenMine => exact absurd hqRev (by simp [revealSpotOpt])
              | FlaggedEmpty n => exact absurd hqRev (by simp [revealSpotOpt])
              | FlaggedMine => exact absurd hqRev (by simp [revealSpotOpt])
              | ExplodedMine => exact absurd hqRev (by simp [revealSpotOpt])
          · rw [if_neg hqm] at hqRev
            rcases hC q hqF hqZ hqRev with hqin | hqnb
            · rcases List.mem_cons.mp hqin with hh | hh
              · exact absurd hh hqc
              · left
                exact List.mem_append.mpr (Or.inr hh)
            · right
              intro d hdm m
              rw [hvf d, hnb]
              by_cases hdc : d ∈ mf.neighbors_coords c.1 c.2
              · rw [if_pos hdc]
                exact revealSpotOpt_not_hidden _ m
              · rw [if_neg hdc]
                exact hqnb d hdm m
      exact ih (floodVisit g c.1 c.2).1 ((floodVisit g c.1 c.2).2 ++ rest)
        hm2 hA2 hB2 hC2

/-- C2.  Stepping on a `HiddenEmpty` cell with counter 0 returns `Phew`,
and afterwards exactly the flood-reachable cells (`Flood`: the cells
reachable from the start through zero-count `HiddenEmpty` cells, which
includes the bordering numbered `HiddenEmpty` cells reached last — they
are revealed but not continued from) that were `HiddenEmpty` are now
`RevealedEmpty`, each keeping its own counter; every other cell — flagged,
mine, already revealed, or not flood-reachable — is unchanged. -/
theorem spec_c2_flood (mf : Minefield) (x y : Nat)
    (hstart : mf.field (x, y) = some ⟨SpotState.HiddenEmpty 0⟩) :
    (mf.step x y).1 = StepResult.Phew ∧
    (∀ p n, Flood mf (x, y) p → mf.field p = some ⟨SpotState.HiddenEmpty n⟩ →
      (mf.step x y).2.field p = some ⟨SpotState.RevealedEmpty n⟩) ∧
    (∀ p, ¬(Flood mf (x, y) p ∧
        ∃ n, mf.field p = some ⟨SpotState.HiddenEmpty n⟩) →
      (mf.step x y).2.field p = mf.field p) := by
  have hstep : mf.step x y =
      (StepResult.Phew, floodLoop (2 * mf.width * mf.height + 1)
        { mf with field := setF mf.field (x, y) ⟨SpotState.RevealedEmpty 0⟩ }
        [(x, y)]) := by
    simp only [Minefield.step, hstart, Spot.step]
  rw [hstep]
  have hle : hiddenCount { mf with
      field := setF mf.field (x, y) ⟨SpotState.RevealedEmpty 0⟩ } ≤
      mf.width * mf.height :=
    hiddenCount_le _
  have hinv := floodLoop_inv mf (x, y) (2 * mf.width * mf.height + 1)
    { mf with field := setF mf.field (x, y) ⟨SpotState.RevealedEmpty 0⟩ }
    [(x, y)]
    (by
      simp only [List.length_cons, List.length_nil]
      have h2 : 2 * mf.width * mf.height = 2 * (mf.width * mf.height) :=
        Nat.mul_assoc 2 mf.width mf.height
      omega)
    ⟨rfl, rfl, fun p => Or.inl rfl⟩
    (by
      intro c hcmem
      have hc : c = (x, y) := by simpa using hcmem
      subst hc
      exact ⟨Flood.start, hstart⟩)
    (by
      intro q hqF hqZ hqRev
      by_cases hqs : q = (x, y)
      · left
        simp [hqs]
      · show q ∈ [(x, y)] ∨ _
        exfalso
        have : ({ mf with
            field := setF mf.field (x, y) ⟨SpotState.RevealedEmpty 0⟩ } :
            Minefield).field q = mf.field q := setF_other _ _ _ hqs
        rw [this, hqZ] at hqRev
        exact SpotState.noConfusion
          (congrArg Spot.state (Option.some.inj hqRev)))
  obtain ⟨hA, hC⟩ := hinv
  refine ⟨rfl, ?_, ?_⟩
  · intro p n hFl
    induction hFl generalizing n with
    | start =>
      intro hn
      have hn0 : 0 = n := by
        have h1 := hstart.symm.trans hn
        simpa using congrArg Spot.state (Option.some.inj h1)
      rcases hA.2.2 (x, y) with hL | ⟨m, hf1, hgf, hF2⟩
      · rw [hL, setF_same, ← hn0]
      · rw [setF_same] at hf1
        exact absurd (congrArg Spot.state (Option.some.inj hf1)) (by simp)
    | extend r q hr hrz hqmem ih =>
      intro hqn
      rcases hC r hr hrz (ih 0 hrz) with hmem | hnbr
      · exact absurd hmem (List.not_mem_nil r)
      · have hqnot := hnbr q hqmem
        by_cases hqs : q = (x, y)
        · subst hqs
          have hn0 : 0 = n := by
            have h1 := hstart.symm.trans hqn
            simpa using congrArg Spot.state (Option.some.inj h1)
          rcases hA.2.2 (x, y) with hL | ⟨m, hf1, hgf, hF2⟩
          · rw [hL, setF_same, ← hn0]
          · rw [setF_same] at hf1
            exact absurd (congrArg Spot.state (Option.some.inj hf1)) (by simp)
        · rcases hA.2.2 q with hL | ⟨m, hf1, hgf, hF2⟩
          · rw [setF_other _ _ _ hqs, hqn] at hL
            exact absurd hL (hqnot n)
          · rw [setF_other _ _ _ hqs, hqn] at hf1
            have hmn : n = m := by
              simpa using congrArg Spot.state (Option.some.inj hf1)
            rw [hgf, hmn]
  · intro p hnot
    by_cases hps : p = (x, y)
    · exact absurd ⟨hps ▸ Flood.start, 0, hps ▸ hstart⟩ hnot
    · rcases hA.2.2 p with hL | ⟨m, hf1, hgf, hF2⟩
      · rw [hL]
        exact setF_other _ _ _ hps
      · exfalso
        rw [setF_other _ _ _ hps] at hf1
        exact hnot ⟨hF2, m, hf1⟩

/-- Witness for C2: stepping the single hidden cell of the fresh 1×1
grid. -/
theorem spec_c2_flood_witness :
    (Minefield.new 1 1).field (0, 0) = some ⟨SpotState.HiddenEmpty 0⟩ ∧
    (((Minefield.new 1 1).step 0 0).1 = StepResult.Phew ∧
     (∀ p n, Flood (Minefield.new 1 1) (0, 0) p →
       (Minefield.new 1 1).field p = some ⟨SpotState.HiddenEmpty n⟩ →
       ((Minefield.new 1 1).step 0 0).2.field p =
         some ⟨SpotState.RevealedEmpty n⟩) ∧
     (∀ p, ¬(Flood (Minefield.new 1 1) (0, 0) p ∧
         ∃ n, (Minefield.new 1 1).field p = some ⟨SpotState.HiddenEmpty n⟩) →
       ((Minefield.new 1 1).step 0 0).2.field p =
         (Minefield.new 1 1).field p)) :=
  ⟨by decide, spec_c2_flood (Minefield.new 1 1) 0 0 (by decide)⟩
